import Mathlib

/-!
Verification of the libertas credential encryption and storage engine.

The development shallowly embeds the core of the repository:

* the JSON value model for credentials (`JValue` / `JElems` / `JFields`),
  together with executable models of the host runtime's
  JSON serializer and parser (`encodeJson` / `parseJson`);
* the AES-256-GCM encryption strategy (`AESEncryption.encrypt` /
  `AESEncryption.decrypt`), whose key handling, blob layout and error
  behaviour follow the source, while the GCM primitive itself (provided
  by the host crypto library, not by this repository) is modelled from
  the spec as an authenticated stream cipher;
* the credentials manager (`CredentialsManager` with `load`, `save`,
  `delete`, `update`, scoped variants and the validators);
* the file storage backend (`sanitizeKey`, path handling, `get`, `set`).

Machine strings are Lean `String`s; byte sequences are `List Nat`;
filesystem paths are strings, resolved by character-level component
normalization.
-/

namespace Libertas

/-- Error model for the source's error classes.  In the source,
`ValidationError`, `EncryptionError` and `StorageError` all extend
`CredentialsError`, so every value of this type models an error that is
an `instanceof CredentialsError`. -/
inductive CMError where
  | credentials (msg : String)
  | validation (msg : String)
  | encryption (msg : String)
  | storage (msg : String)
deriving DecidableEq

/-- Model of the JS test for a character being an ASCII decimal digit. -/
def isDigitCh (c : Char) : Bool := 48 ≤ c.toNat && c.toNat ≤ 57

/-- Numeric value of an ASCII digit character. -/
def digitVal (c : Char) : Nat := c.toNat - 48

/-- Little-endian base-10 digits, by structural recursion on a fuel
bound so that the kernel can evaluate it (agrees with base-10
`Nat.digits`). -/
def natDigitsAux : Nat → Nat → List Nat
  | 0, _ => []
  | fuel + 1, n => if n = 0 then [] else n % 10 :: natDigitsAux fuel (n / 10)

/-- Little-endian base-10 digits of a natural number. -/
def natDigits (n : Nat) : List Nat := natDigitsAux n n

/-- Decimal digit characters of a natural number, most significant first,
modelling how the JS runtime prints a non-negative integer. -/
def natChars (n : Nat) : List Char :=
  if n = 0 then [Char.ofNat 48]
  else ((natDigits n).map (fun d => Char.ofNat (48 + d))).reverse

/-- Parse a list of decimal digit characters, most significant first. -/
def parseNatChars (ds : List Char) : Nat :=
  Nat.ofDigits 10 ((ds.map digitVal).reverse)

mutual

/-- Model of a JSON-compatible JS value: the `Credentials` data model of
the source (`[key: string]: string | number | boolean | object`). -/
inductive JValue where
  | str (s : String)
  | num (n : Int)
  | bool (b : Bool)
  | null
  | arr (elems : JElems)
  | obj (fields : JFields)

/-- List of JSON array elements. -/
inductive JElems where
  | nil
  | cons (head : JValue) (tail : JElems)

/-- List of JSON object fields (key / value pairs, in insertion order). -/
inductive JFields where
  | nil
  | cons (key : String) (val : JValue) (tail : JFields)

end

/-- Escaping of one character inside a JSON string literal.  The model
escapes the quote and the backslash; control-character escapes of the
full JSON grammar are not exercised by the development. -/
def escapeChar (c : Char) : List Char :=
  if c = '\x22' ∨ c = '\\' then ['\\', c] else [c]

/-- JSON encoding of a string literal, quotes included. -/
def encodeStrChars (s : String) : List Char :=
  '\x22' :: (s.data.flatMap escapeChar) ++ ['\x22']

/-- JSON encoding of an integer, modelling the JS runtime's printing. -/
def encodeInt : Int → List Char
  | .ofNat m => natChars m
  | .negSucc m => '-' :: natChars (m + 1)

mutual

/-- Model of the host runtime's compact JSON serialization
(`JSON.stringify` with no spacing), as used by `CredentialsManager.save`. -/
def encodeVal : JValue → List Char
  | .str s => encodeStrChars s
  | .num n => encodeInt n
  | .bool true => ['t', 'r', 'u', 'e']
  | .bool false => ['f', 'a', 'l', 's', 'e']
  | .null => ['n', 'u', 'l', 'l']
  | .arr xs => '[' :: encodeElems xs ++ [']']
  | .obj fs => '\x7b' :: encodeFields fs ++ ['\x7d']

/-- Comma-separated encoding of array elements. -/
def encodeElems : JElems → List Char
  | .nil => []
  | .cons v .nil => encodeVal v
  | .cons v tl => encodeVal v ++ ',' :: encodeElems tl

/-- Comma-separated encoding of object fields. -/
def encodeFields : JFields → List Char
  | .nil => []
  | .cons k v .nil => encodeStrChars k ++ ':' :: encodeVal v
  | .cons k v tl => encodeStrChars k ++ ':' :: encodeVal v ++ ',' :: encodeFields tl

end

/-- JSON serialization of a value as a string: the model of
`JSON.stringify(value)` in the manager's save path. -/
def encodeJson (v : JValue) : String := String.mk (encodeVal v)

/-- Decode the body of a JSON string literal after the opening quote;
returns the decoded characters and the input following the closing
quote. -/
def decStr : List Char → Option (List Char × List Char)
  | [] => none
  | c :: rest =>
    if c = '\\' then
      match rest with
      | [] => none
      | c2 :: rest2 =>
        match decStr rest2 with
        | some (cs, r) => some (c2 :: cs, r)
        | none => none
    else if c = '\x22' then some ([], rest)
    else
      match decStr rest with
      | some (cs, r) => some (c :: cs, r)
      | none => none

mutual

/-- Fuel-indexed recursive-descent JSON value decoder; together with
`decElems` and `decFields` it models the host runtime's `JSON.parse`
(on whitespace-free input).  Returns the value and the remaining
input. -/
def decVal : Nat → List Char → Option (JValue × List Char)
  | 0, _ => none
  | fuel + 1, input =>
    match input with
    | [] => none
    | c :: rest =>
      if c = '\x22' then
        match decStr rest with
        | some (cs, r) => some (.str (String.mk cs), r)
        | none => none
      else if c = 't' then
        if rest.take 3 = ['r', 'u', 'e'] then some (.bool true, rest.drop 3)
        else none
      else if c = 'f' then
        if rest.take 4 = ['a', 'l', 's', 'e'] then some (.bool false, rest.drop 4)
        else none
      else if c = 'n' then
        if rest.take 3 = ['u', 'l', 'l'] then some (.null, rest.drop 3)
        else none
      else if c = '[' then
        match decElems fuel rest with
        | some (xs, r) => some (.arr xs, r)
        | none => none
      else if c = '\x7b' then
        match decFields fuel rest with
        | some (fs, r) => some (.obj fs, r)
        | none => none
      else if c = '-' then
        let ds := rest.takeWhile isDigitCh
        if ds = [] then none
        else some (.num (-(parseNatChars ds : Int)), rest.dropWhile isDigitCh)
      else if isDigitCh c then
        some (.num (Int.ofNat (parseNatChars ((c :: rest).takeWhile isDigitCh))),
              (c :: rest).dropWhile isDigitCh)
      else none

/-- Decoder for the element list of a JSON array, after the opening
bracket. -/
def decElems : Nat → List Char → Option (JElems × List Char)
  | 0, _ => none
  | fuel + 1, input =>
    match input with
    | [] => none
    | c :: r =>
      if c = ']' then some (.nil, r)
      else
        match decVal fuel (c :: r) with
        | none => none
        | some (v, r1) =>
          match r1 with
          | [] => none
          | c1 :: r2 =>
            if c1 = ',' then
              match decElems fuel r2 with
              | some (vs, r3) => some (.cons v vs, r3)
              | none => none
            else if c1 = ']' then some (.cons v .nil, r2)
            else none

/-- Decoder for the field list of a JSON object, after the opening
brace. -/
def decFields : Nat → List Char → Option (JFields × List Char)
  | 0, _ => none
  | fuel + 1, input =>
    match input with
    | [] => none
    | c :: r =>
      if c = '\x7d' then some (.nil, r)
      else if c = '\x22' then
        match decStr r with
        | none => none
        | some (kcs, r1) =>
          match r1 with
          | [] => none
          | c1 :: r2 =>
            if c1 = ':' then
              match decVal fuel r2 with
              | none => none
              | some (v, r3) =>
                match r3 with
                | [] => none
                | c2 :: r4 =>
                  if c2 = ',' then
                    match decFields fuel r4 with
                    | some (fs, r5) => some (.cons (String.mk kcs) v fs, r5)
                    | none => none
                  else if c2 = '\x7d' then some (.cons (String.mk kcs) v .nil, r4)
                  else none
            else none
      else none

end

/-- Model of `JSON.parse` on a whole document: decode one value and
require the input to be exhausted. -/
def parseJson (s : String) : Option JValue :=
  match decVal (s.data.length + 1) s.data with
  | some (v, []) => some v
  | _ => none

mutual

/-- Fuel requirement of `decVal` on the encoding of a value. -/
def sizeV : JValue → Nat
  | .str _ => 1
  | .num _ => 1
  | .bool _ => 1
  | .null => 1
  | .arr xs => 1 + sizeE xs
  | .obj fs => 1 + sizeF fs

/-- Fuel requirement of `decElems` on an encoded element list. -/
def sizeE : JElems → Nat
  | .nil => 1
  | .cons v tl => 1 + max (sizeV v) (sizeE tl)

/-- Fuel requirement of `decFields` on an encoded field list. -/
def sizeF : JFields → Nat
  | .nil => 1
  | .cons _ v tl => 1 + max (sizeV v) (sizeF tl)

end

/-- Input whose first character is not a decimal digit; the number
decoder is greedy, so the decoding of an encoded number recovers it
exactly when the following input does not begin with a digit. -/
def noDigitStart (l : List Char) : Prop :=
  ∀ c, l.head? = some c → isDigitCh c = false

/-! ## Bytes, hex decoding, and the encryption strategy

Byte sequences are modelled as `List Nat`.  `hexToBytes` models
`Buffer.from(key, 'hex')`: it decodes pairs of hex digits (either case)
and stops at the first pair that is not two hex digits, dropping a
trailing unpaired character. -/

/-- Hex value of a single character, if it is a hex digit (either case),
following the host runtime's hex decoder. -/
def hexDigitVal (c : Char) : Option Nat :=
  if 48 ≤ c.toNat ∧ c.toNat ≤ 57 then some (c.toNat - 48)
  else if 97 ≤ c.toNat ∧ c.toNat ≤ 102 then some (c.toNat - 87)
  else if 65 ≤ c.toNat ∧ c.toNat ≤ 70 then some (c.toNat - 55)
  else none

/-- Decode hex digit pairs into bytes, stopping at the first invalid
pair, as `Buffer.from(s, 'hex')` does. -/
def hexPairsToBytes : List Char → List Nat
  | c1 :: c2 :: rest =>
    match hexDigitVal c1, hexDigitVal c2 with
    | some h, some l => (16 * h + l) :: hexPairsToBytes rest
    | _, _ => []
  | _ => []

/-- Model of `Buffer.from(key, 'hex')`. -/
def hexToBytes (s : String) : List Nat := hexPairsToBytes s.data

/-- Test for a lowercase hex digit, the character class of the master-key
regex of the source (`[a-f0-9]`). -/
def isLowerHexDigit (c : Char) : Bool :=
  (48 ≤ c.toNat && c.toNat ≤ 57) || (97 ≤ c.toNat && c.toNat ≤ 102)

/-- Characters of a string as byte values.  Modelled from the spec: the
source feeds UTF-8 bytes of the plaintext to the cipher; the model
abstracts the byte encoding to the character codes, which the stream
cipher model handles losslessly. -/
def strToBytes (s : String) : List Nat := s.data.map Char.toNat

/-- Inverse of `strToBytes` on its image. -/
def bytesToStr (bs : List Nat) : String := String.mk (bs.map Char.ofNat)

/-- Injective numeric code of a byte list (base-257 with digits shifted
by one); used by the modelled GCM authentication tag. -/
def byteListCode : List Nat → Nat
  | [] => 0
  | b :: rest => (b + 1) + 257 * byteListCode rest

/-- Modelled from the spec: the GCM keystream byte at index `i` for a
given key and IV.  Only its determinism matters to the claims; the
mixing is an arbitrary concrete function. -/
def ksByte (key iv : List Nat) (i : Nat) : Nat :=
  (byteListCode key + 31 * byteListCode iv + 131 * i + 7) % 256

/-- XOR a byte list against the modelled keystream, starting at index
`i`.  Applying it twice with the same key, IV and start index is the
identity, which models GCM's counter-mode symmetry. -/
def xorStream (key iv : List Nat) : Nat → List Nat → List Nat
  | _, [] => []
  | i, b :: rest => (b ^^^ ksByte key iv i) :: xorStream key iv (i + 1) rest

/-- Modelled from the spec: the 16-byte GCM authentication tag over key,
IV and ciphertext.  The model is an ideal MAC: its first entry
determines key, IV and ciphertext injectively, reflecting the spec's
requirement that any tag mismatch or wrong key makes decryption fail. -/
def gcmTag (key iv ct : List Nat) : List Nat :=
  Nat.pair (byteListCode key) (Nat.pair (byteListCode iv) (byteListCode ct))
    :: List.replicate 15 0

namespace AESEncryption

/-- Model of `AESEncryption.encrypt` from the source: hex-decode the
key, reject a key whose decoded length is not 32 bytes with an
`EncryptionError`, then produce the blob `IV ++ authTag ++ ciphertext`.
The fresh random IV of the source is passed explicitly; the hex
transport encoding of the blob, a bijection on byte sequences, is
omitted, so the blob is the byte sequence itself. -/
def encrypt (data : String) (key : String) (iv : List Nat) :
    Except CMError (List Nat) :=
  let keyBuffer := hexToBytes key
  if keyBuffer.length ≠ 32 then .error (.encryption "Key must be 32 bytes")
  else
    let ct := xorStream keyBuffer iv 0 (strToBytes data)
    .ok (iv ++ (gcmTag keyBuffer iv ct ++ ct))

/-- Model of `AESEncryption.decrypt` from the source: hex-decode the
key, reject a key whose decoded length is not 32 bytes before any
cryptographic operation, split the blob into IV (first 16 bytes), auth
tag (next 16 bytes) and ciphertext (remainder), verify the tag, and
decrypt.  A blob shorter than 32 bytes is malformed and fails closed
(spec: the GCM primitive rejects it); any failure is an
`EncryptionError` and no partial plaintext is returned. -/
def decrypt (blob : List Nat) (key : String) : Except CMError String :=
  let keyBuffer := hexToBytes key
  if keyBuffer.length ≠ 32 then .error (.encryption "Key must be 32 bytes")
  else
    let iv := blob.take 16
    let tag := (blob.drop 16).take 16
    let ct := blob.drop 32
    if blob.length < 32 then
      .error (.encryption "Decryption failed: malformed blob")
    else if tag ≠ gcmTag keyBuffer iv ct then
      .error (.encryption "Decryption failed: auth tag mismatch")
    else .ok (bytesToStr (xorStream keyBuffer iv 0 ct))

end AESEncryption

/-! ## The credentials manager -/

/-- Model of `CredentialsManager.validateKey`: a key must be a non-empty
string of at most 255 characters, else a `ValidationError`. -/
def validateKeyM (key : String) : Except CMError Unit :=
  if key = "" then .error (.validation "Key must be a non-empty string")
  else if 255 < key.length then
    .error (.validation "Key must not exceed 255 characters")
  else .ok ()

/-- Model of `CredentialsManager.validateCredentials`: the JS checks
`!credentials || typeof credentials !== 'object'` (rejecting null and
every primitive) and `Array.isArray(credentials)` leave exactly the
plain objects. -/
def validateCredentialsM : JValue → Except CMError Unit
  | .obj _ => .ok ()
  | .arr _ => .error (.validation "Credentials must be an object, not an array")
  | _ => .error (.validation "Credentials must be a valid object")

/-- Model of `CredentialsManager.validateMasterKey`: non-empty, matches
`^[a-f0-9]+$`, and is exactly 64 characters long. -/
def validateMasterKeyM (key : String) : Except CMError Unit :=
  if key = "" then .error (.validation "Master key must be a non-empty string")
  else if ¬ key.data.all isLowerHexDigit then
    .error (.validation "Master key must be a valid hex string")
  else if key.length ≠ 64 then
    .error (.validation "Master key must be 32 bytes (64 hex characters)")
  else .ok ()

/-- State of a `CredentialsManager` backed by the in-memory storage
backend: the mutable master key and the backing map from keys to stored
blobs (`InMemoryStorage`'s `Map`, modelled as a function). -/
structure CredentialsManager where
  masterKey : String
  store : String → Option (List Nat)

/-- Model of the `CredentialsManager` constructor:
`config.masterKey || CryptoUtils.generateMasterKey()`.  The generated
random key is passed explicitly.  Note the constructor performs no
validation of the provided key. -/
def newManager (configKey : Option String) (generatedKey : String) :
    CredentialsManager :=
  { masterKey :=
      match configKey with
      | some k => if k = "" then generatedKey else k
      | none => generatedKey
    store := fun _ => none }

namespace CredentialsManager

/-- Model of `CredentialsManager.load`: validate the key, fetch the blob
(`!encrypted`, so both a missing entry and an empty blob give the
not-found `CredentialsError`), decrypt, JSON-parse.  An
`EncryptionError` from decryption is an `instanceof CredentialsError`
and is rethrown unchanged; a JSON parse failure is wrapped in a fresh
`CredentialsError`. -/
def load (m : CredentialsManager) (key : String) : Except CMError JValue :=
  match validateKeyM key with
  | .error e => .error e
  | .ok _ =>
    match m.store key with
    | none => .error (.credentials ("Credentials not found for key: " ++ key))
    | some blob =>
      if blob = [] then
        .error (.credentials ("Credentials not found for key: " ++ key))
      else
        match AESEncryption.decrypt blob m.masterKey with
        | .error e => .error e
        | .ok decrypted =>
          match parseJson decrypted with
          | none => .error (.credentials "Failed to load credentials: JSON parse error")
          | some v => .ok v

/-- Model of `CredentialsManager.save`: validate the key and the
credentials, JSON-serialize, encrypt, store.  The fresh IV consumed by
the encryption strategy is passed explicitly.  Returns the manager with
the updated backing store. -/
def save (m : CredentialsManager) (key : String) (credentials : JValue)
    (iv : List Nat) : Except CMError CredentialsManager :=
  match validateKeyM key with
  | .error e => .error e
  | .ok _ =>
    match validateCredentialsM credentials with
    | .error e => .error e
    | .ok _ =>
      match AESEncryption.encrypt (encodeJson credentials) m.masterKey iv with
      | .error e => .error e
      | .ok blob =>
        .ok { m with store := fun k2 => if k2 = key then some blob else m.store k2 }

/-- Model of `CredentialsManager.delete`: validate the key and remove
the entry (idempotent). -/
def delete (m : CredentialsManager) (key : String) :
    Except CMError CredentialsManager :=
  match validateKeyM key with
  | .error e => .error e
  | .ok _ => .ok { m with store := fun k2 => if k2 = key then none else m.store k2 }

/-- Model of `CredentialsManager.exists`: validate the key and report
whether the backend has an entry. -/
def existsKey (m : CredentialsManager) (key : String) : Except CMError Bool :=
  match validateKeyM key with
  | .error e => .error e
  | .ok _ => .ok (m.store key).isSome

/-- Lookup of a field in a field list (first occurrence, as JS property
lookup on an object built without duplicate keys). -/
def lookupField : JFields → String → Option JValue
  | .nil, _ => none
  | .cons k v tl, key => if k = key then some v else lookupField tl key

/-- Concatenation of field lists. -/
def appendFields : JFields → JFields → JFields
  | .nil, b => b
  | .cons k v tl, b => .cons k v (appendFields tl b)

/-- Fields of the first list, with values overridden by the second where
the key collides (keys keep their original position, as in a JS object
spread). -/
def overrideFields : JFields → JFields → JFields
  | .nil, _ => .nil
  | .cons k v tl, b => .cons k ((lookupField b k).getD v) (overrideFields tl b)

/-- Fields of the first list whose keys are absent from the second, in
order. -/
def newFields : JFields → JFields → JFields
  | .nil, _ => .nil
  | .cons k v tl, a =>
    if (lookupField a k).isSome then newFields tl a
    else .cons k v (newFields tl a)

/-- Model of the JS object spread `{ ...a, ...b }` on field lists: keys
of `a` in order with `b`'s values where overridden, then the new keys of
`b` in order.  This is a shallow merge: a colliding value from `b`
replaces the whole value from `a`. -/
def spreadFields (a b : JFields) : JFields :=
  appendFields (overrideFields a b) (newFields b a)

/-- Model of `{ ...existing, ...updates }` where `existing` is the loaded
credentials value.  A non-object primitive spreads no enumerable
properties of its own (index-spreading of strings is not modelled). -/
def jsSpread (existing : JValue) (updates : JFields) : JValue :=
  match existing with
  | .obj fs => .obj (spreadFields fs updates)
  | _ => .obj updates

/-- Model of `CredentialsManager.update`: load the existing credentials
(failing if absent), shallow-merge the updates over them, save, and
return the merged value with the updated manager. -/
def update (m : CredentialsManager) (key : String) (updates : JFields)
    (iv : List Nat) : Except CMError (JValue × CredentialsManager) :=
  match m.load key with
  | .error e => .error e
  | .ok existing =>
    let updated := jsSpread existing updates
    match m.save key updated iv with
    | .error e => .error e
    | .ok m2 => .ok (updated, m2)

/-- Model of `CredentialsManager.setMasterKey`: validate the new key's
format and swap it. -/
def setMasterKey (m : CredentialsManager) (newKey : String) :
    Except CMError CredentialsManager :=
  match validateMasterKeyM newKey with
  | .error e => .error e
  | .ok _ => .ok { m with masterKey := newKey }

/-- Model of `CredentialsManager.generateScopedKey`: the JS template
`scope ? name + "." + scope : name`, where an empty scope string is
falsy. -/
def generateScopedKey (name : String) (scope : Option String) : String :=
  match scope with
  | some s => if s = "" then name else name ++ "." ++ s
  | none => name

/-- Model of `CredentialsManager.loadScoped`. -/
def loadScoped (m : CredentialsManager) (name : String) (scope : Option String) :
    Except CMError JValue :=
  m.load (generateScopedKey name scope)

/-- Model of `CredentialsManager.saveScoped`. -/
def saveScoped (m : CredentialsManager) (name : String) (credentials : JValue)
    (scope : Option String) (iv : List Nat) : Except CMError CredentialsManager :=
  m.save (generateScopedKey name scope) credentials iv

/-- Model of `CredentialsManager.deleteScoped`. -/
def deleteScoped (m : CredentialsManager) (name : String) (scope : Option String) :
    Except CMError CredentialsManager :=
  m.delete (generateScopedKey name scope)

/-- Model of `CredentialsManager.existsScoped`. -/
def existsScoped (m : CredentialsManager) (name : String) (scope : Option String) :
    Except CMError Bool :=
  m.existsKey (generateScopedKey name scope)

end CredentialsManager

/-! ## The file storage backend

Filesystem paths are strings; the filesystem itself is a function from
file paths to file contents.  `path.resolve` is modelled by splitting
the path at every slash, normalizing the components (`.` and empty
components are dropped, `..` pops a component, the working directory is
the root) and rejoining them into an absolute path string.  The
containment check is the source's raw string-prefix test
`resolved.startsWith(baseResolved)`, modelled character-for-character
(no separator guard). -/

/-- Character class kept verbatim by `sanitizeKey`
(the source's `[a-zA-Z0-9._-]`). -/
def isAllowedChar (c : Char) : Bool :=
  (65 ≤ c.toNat && c.toNat ≤ 90) || (97 ≤ c.toNat && c.toNat ≤ 122) ||
  (48 ≤ c.toNat && c.toNat ≤ 57) || c = '.' || c = '_' || c = '-'

/-- Drop a leading run of dots (the source's `replace(/^\.+/, '')`). -/
def stripLeadingDots (l : List Char) : List Char :=
  l.dropWhile (fun c => c = '.')

/-- Drop a trailing run of dots (the source's `replace(/\.+$/, '')`). -/
def stripTrailingDots (l : List Char) : List Char :=
  (l.reverse.dropWhile (fun c => c = '.')).reverse

/-- Model of `sanitizeKey` from `file-storage.ts`: replace every
character outside `[a-zA-Z0-9._-]` with an underscore, then strip
leading and trailing dots. -/
def sanitizeKey (key : String) : String :=
  String.mk (stripTrailingDots (stripLeadingDots
    (key.data.map (fun c => if isAllowedChar c then c else '_'))))

/-- Split a character list into path components at every slash. -/
def splitSlash : List Char → List (List Char)
  | [] => [[]]
  | c :: rest =>
    match splitSlash rest with
    | [] => [[c]]
    | s :: ss => if c = '/' then [] :: s :: ss else (c :: s) :: ss

/-- Normalize path components as `path.resolve` does: drop empty and
`.` components and let `..` pop the previous component (at the root,
`..` stays at the root). -/
def normalizeComponents (l : List (List Char)) : List (List Char) :=
  l.foldl
    (fun acc comp =>
      if comp = [] ∨ comp = ['.'] then acc
      else if comp = ['.', '.'] then acc.dropLast
      else acc ++ [comp])
    []

/-- Join path components with slashes. -/
def joinComps : List (List Char) → List Char
  | [] => []
  | [x] => x
  | x :: xs => x ++ '/' :: joinComps xs

/-- Model of `path.resolve`: normalize the path into an absolute path
string, with the process working directory taken as the root. -/
def resolvePath (p : String) : String :=
  String.mk ('/' :: joinComps (normalizeComponents (splitSlash p.data)))

/-- Model of JS `String.prototype.startsWith`: a raw character-level
prefix test, with no path-separator awareness. -/
def strStartsWith (s pre : String) : Bool :=
  pre.data.isPrefixOf s.data

/-- Modelled from the spec: the spec's notion of one path remaining "a
descendant of the base directory" — the normalized components of the
base are an initial segment of those of the path.  Used to compare the
spec's containment requirement with the source's string-prefix guard. -/
def isDescendant (base p : String) : Bool :=
  (normalizeComponents (splitSlash base.data)).isPrefixOf
    (normalizeComponents (splitSlash p.data))

namespace FileStorage

/-- Model of `FileStorage.getFilePath`: join the base directory with the
sanitized key plus the `.json` extension.  `path.join` is modelled as
separator concatenation; its own `..`-normalization is subsumed by the
`path.resolve` in `verifyPath`, since the appended filename is a single
slash-free component. -/
def getFilePath (base : String) (key : String) : String :=
  base ++ "/" ++ (sanitizeKey key ++ ".json")

/-- Model of `FileStorage.verifyPath`: resolve the path and the base and
require `resolved.startsWith(baseResolved)` — the source's raw
string-prefix test — else a `StorageError`. -/
def verifyPath (base : String) (p : String) : Except CMError Unit :=
  if strStartsWith (resolvePath p) (resolvePath base) then .ok ()
  else .error (.storage "Access denied: path traversal attempt detected")

/-- Last-occurrence lookup in a field list, as JS property access on the
result of `JSON.parse` (later duplicate keys win). -/
def lookupLastField : JFields → String → Option JValue
  | .nil, _ => none
  | .cons k v tl, key =>
    match lookupLastField tl key with
    | some r => some r
    | none => if k = key then some v else none

/-- JS truthiness of a JSON value (`NaN` is not representable in the
model). -/
def jsTruthy : JValue → Bool
  | .null => false
  | .bool b => b
  | .num n => n ≠ 0
  | .str s => s ≠ ""
  | .arr _ => true
  | .obj _ => true

/-- Model of the JS expression `data.value || null` on a parsed JSON
document: property access (undefined on non-objects) collapsed to
`none` when absent or falsy. -/
def recordValue (data : JValue) : Option JValue :=
  match data with
  | .obj fs =>
    match lookupLastField fs "value" with
    | some v => if jsTruthy v then some v else none
    | none => none
  | _ => none

/-- Model of `FileStorage.get`: compute and verify the file path, treat
a missing file as not-found (`none`, not an error), parse an existing
file as JSON (a parse failure is a `StorageError`) and return
`data.value || null`.  `ensureDirectory` is a no-op in the model. -/
def get (fs : String → Option String) (base : String) (key : String) :
    Except CMError (Option JValue) :=
  let p := getFilePath base key
  match verifyPath base p with
  | .error e => .error e
  | .ok _ =>
    match fs p with
    | none => .ok none
    | some content =>
      match parseJson content with
      | none => .error (.storage "Failed to read from storage: JSON parse error")
      | some data => .ok (recordValue data)

/-- Record written by `FileStorage.set`: the JSON document
`{value, timestamp}` (the source pretty-prints with two-space
indentation; the model writes the compact form, which carries the same
record). -/
def recordJson (value timestamp : String) : String :=
  encodeJson (.obj (.cons "value" (.str value) (.cons "timestamp" (.str timestamp) .nil)))

/-- Model of `FileStorage.set`: compute and verify the file path, then
write the record there, leaving every other path untouched. -/
def set (fs : String → Option String) (base : String) (key : String)
    (value timestamp : String) : Except CMError (String → Option String) :=
  let p := getFilePath base key
  match verifyPath base p with
  | .error e => .error e
  | .ok _ => .ok (fun q => if q = p then some (recordJson value timestamp) else fs q)

end FileStorage

/-! ## Concrete fixtures for the closed instances -/

/-- Fixture: a valid master key, 64 lowercase hex characters. -/
def wKey : String := String.mk (List.replicate 64 'a')

/-- Fixture: a second, different valid master key. -/
def wKeyB : String := String.mk (List.replicate 64 'b')

/-- Fixture: an uppercase 64-character key, rejected by the master-key
validator. -/
def wKeyUpper : String := String.mk (List.replicate 64 'A')

/-- Fixture: a concrete 16-byte IV. -/
def wIV : List Nat := List.replicate 16 0

/-! ## Serializer / parser inversion -/

theorem noDigitStart_nil : noDigitStart [] := by
  intro c h
  simp at h

theorem noDigitStart_cons {c : Char} (h : isDigitCh c = false) (r : List Char) :
    noDigitStart (c :: r) := by
  intro d hd
  simp at hd
  exact hd ▸ h

theorem decStr_quote (t : List Char) : decStr ('\x22' :: t) = some ([], t) := by
  conv_lhs => unfold decStr
  try dsimp only
  rw [if_neg (by decide), if_pos rfl]

theorem decStr_bs (c : Char) (t : List Char) :
    decStr ('\\' :: c :: t) =
      match decStr t with
      | some (cs, r) => some (c :: cs, r)
      | none => none := by
  conv_lhs => unfold decStr
  try dsimp only
  rw [if_pos rfl]

theorem decStr_other {c : Char} (t : List Char) (h1 : c ≠ '\\') (h2 : c ≠ '\x22') :
    decStr (c :: t) =
      match decStr t with
      | some (cs, r) => some (c :: cs, r)
      | none => none := by
  conv_lhs => unfold decStr
  try dsimp only
  rw [if_neg h1, if_neg h2]

theorem decStr_append_escape (s : List Char) (rest : List Char) :
    decStr (s.flatMap escapeChar ++ '\x22' :: rest) = some (s, rest) := by
  induction s with
  | nil => simp only [List.flatMap_nil, List.nil_append, decStr_quote]
  | cons c cs ih =>
    by_cases h : c = '\x22' ∨ c = '\\'
    · simp only [List.flatMap_cons, escapeChar, if_pos h, List.cons_append,
        List.append_assoc, List.nil_append]
      rw [decStr_bs, ih]
    · push_neg at h
      simp only [List.flatMap_cons, escapeChar, if_neg (by tauto :
        ¬(c = '\x22' ∨ c = '\\')), List.cons_append, List.append_assoc,
        List.nil_append]
      rw [decStr_other _ h.2 h.1, ih]

theorem natDigitsAux_eq : ∀ (fuel n : Nat), n ≤ fuel →
    natDigitsAux fuel n = Nat.digits 10 n := by
  intro fuel
  induction fuel with
  | zero =>
    intro n h
    have : n = 0 := by omega
    simp [this, natDigitsAux]
  | succ f ih =>
    intro n h
    by_cases h0 : n = 0
    · simp [h0, natDigitsAux]
    · rw [natDigitsAux, if_neg h0, ih (n / 10) (by omega),
        Nat.digits_def' (by norm_num : (1 : Nat) < 10) (Nat.pos_of_ne_zero h0)]

theorem natDigits_eq (n : Nat) : natDigits n = Nat.digits 10 n :=
  natDigitsAux_eq n n le_rfl

theorem isDigit_digitChar {d : Nat} (h : d < 10) :
    isDigitCh (Char.ofNat (48 + d)) = true := by
  interval_cases d <;> decide

theorem digitVal_digitChar {d : Nat} (h : d < 10) :
    digitVal (Char.ofNat (48 + d)) = d := by
  interval_cases d <;> decide

theorem natChars_ne_nil (n : Nat) : natChars n ≠ [] := by
  unfold natChars
  split
  · simp
  · rename_i h
    simp [natDigits_eq, Nat.digits_ne_nil_iff_ne_zero, h]

theorem natChars_all_digits (n : Nat) :
    ∀ c ∈ natChars n, isDigitCh c = true := by
  unfold natChars
  split
  · intro c hc
    simp at hc
    subst hc
    decide
  · intro c hc
    rw [natDigits_eq] at hc
    simp only [List.mem_reverse, List.mem_map] at hc
    obtain ⟨d, hd, rfl⟩ := hc
    exact isDigit_digitChar (Nat.digits_lt_base (by norm_num) hd)

theorem parseNatChars_natChars (n : Nat) : parseNatChars (natChars n) = n := by
  unfold natChars parseNatChars
  split
  · rename_i h
    subst h
    decide
  · rw [natDigits_eq]
    rw [List.map_reverse, List.reverse_reverse, List.map_map]
    have hmap : (Nat.digits 10 n).map (digitVal ∘ fun d => Char.ofNat (48 + d)) =
        (Nat.digits 10 n).map id := by
      refine List.map_congr_left (fun d hd => ?_)
      simpa using digitVal_digitChar (Nat.digits_lt_base (by norm_num) hd)
    rw [hmap, List.map_id, Nat.ofDigits_digits]

theorem takeWhile_all_append (p : Char → Bool) :
    ∀ (xs ys : List Char), (∀ x ∈ xs, p x = true) →
      (∀ c, ys.head? = some c → p c = false) →
      (xs ++ ys).takeWhile p = xs ∧ (xs ++ ys).dropWhile p = ys := by
  intro xs
  induction xs with
  | nil =>
    intro ys _ h2
    cases ys with
    | nil => simp
    | cons c t =>
      have := h2 c (by simp)
      simp [List.takeWhile_cons, List.dropWhile_cons, this]
  | cons x xs ih =>
    intro ys h1 h2
    have hx := h1 x (by simp)
    have := ih ys (fun a ha => h1 a (by simp [ha])) h2
    simp [List.takeWhile_cons, List.dropWhile_cons, hx, this.1, this.2]

theorem digit_ne {c : Char} (h : isDigitCh c = true) :
    c ≠ '\x22' ∧ c ≠ 't' ∧ c ≠ 'f' ∧ c ≠ 'n' ∧ c ≠ '[' ∧ c ≠ '\x7b' ∧
    c ≠ '-' ∧ c ≠ ']' ∧ c ≠ '\x7d' ∧ c ≠ ',' ∧ c ≠ ':' := by
  refine ⟨?_, ?_, ?_, ?_, ?_, ?_, ?_, ?_, ?_, ?_, ?_⟩ <;>
    (intro hc; subst hc; exact absurd h (by decide))

theorem decVal_quote (f : Nat) (rest : List Char) :
    decVal (f + 1) ('\x22' :: rest) =
      match decStr rest with
      | some (cs, r) => some (.str (String.mk cs), r)
      | none => none := by
  conv_lhs => unfold decVal
  try dsimp only
  rw [if_pos rfl]

theorem decVal_true (f : Nat) (r : List Char) :
    decVal (f + 1) ('t' :: 'r' :: 'u' :: 'e' :: r) = some (.bool true, r) := by
  conv_lhs => unfold decVal
  try dsimp only
  rw [if_neg (by decide), if_pos rfl]
  simp

theorem decVal_false (f : Nat) (r : List Char) :
    decVal (f + 1) ('f' :: 'a' :: 'l' :: 's' :: 'e' :: r) = some (.bool false, r) := by
  conv_lhs => unfold decVal
  try dsimp only
  rw [if_neg (by decide), if_neg (by decide), if_pos rfl]
  simp

theorem decVal_null (f : Nat) (r : List Char) :
    decVal (f + 1) ('n' :: 'u' :: 'l' :: 'l' :: r) = some (.null, r) := by
  conv_lhs => unfold decVal
  try dsimp only
  rw [if_neg (by decide), if_neg (by decide), if_neg (by decide), if_pos rfl]
  simp

theorem decVal_lbrack (f : Nat) (rest : List Char) :
    decVal (f + 1) ('[' :: rest) =
      match decElems f rest with
      | some (xs, r) => some (.arr xs, r)
      | none => none := by
  conv_lhs => unfold decVal
  try dsimp only
  rw [if_neg (by decide), if_neg (by decide), if_neg (by decide),
    if_neg (by decide), if_pos rfl]

theorem decVal_lbrace (f : Nat) (rest : List Char) :
    decVal (f + 1) ('\x7b' :: rest) =
      match decFields f rest with
      | some (fs, r) => some (.obj fs, r)
      | none => none := by
  conv_lhs => unfold decVal
  try dsimp only
  rw [if_neg (by decide), if_neg (by decide), if_neg (by decide),
    if_neg (by decide), if_neg (by decide), if_pos rfl]

theorem decVal_dash (f : Nat) (rest : List Char) :
    decVal (f + 1) ('-' :: rest) =
      (if rest.takeWhile isDigitCh = [] then none
       else some (.num (-(parseNatChars (rest.takeWhile isDigitCh) : Int)),
         rest.dropWhile isDigitCh)) := by
  conv_lhs => unfold decVal
  try dsimp only
  rw [if_neg (by decide), if_neg (by decide), if_neg (by decide),
    if_neg (by decide), if_neg (by decide), if_neg (by decide), if_pos rfl]

theorem decVal_digit (f : Nat) {c : Char} (rest : List Char)
    (h : isDigitCh c = true) :
    decVal (f + 1) (c :: rest) =
      some (.num (Int.ofNat (parseNatChars ((c :: rest).takeWhile isDigitCh))),
        (c :: rest).dropWhile isDigitCh) := by
  have hne := digit_ne h
  conv_lhs => unfold decVal
  try dsimp only
  rw [if_neg hne.1, if_neg hne.2.1, if_neg hne.2.2.1, if_neg hne.2.2.2.1,
    if_neg hne.2.2.2.2.1, if_neg hne.2.2.2.2.2.1, if_neg hne.2.2.2.2.2.2.1,
    if_pos h]

theorem decElems_rbrack (f : Nat) (r : List Char) :
    decElems (f + 1) (']' :: r) = some (.nil, r) := by
  conv_lhs => unfold decElems
  try dsimp only
  rw [if_pos rfl]

theorem decElems_cons (f : Nat) {c : Char} (r : List Char) (h : c ≠ ']') :
    decElems (f + 1) (c :: r) =
      match decVal f (c :: r) with
      | none => none
      | some (v, r1) =>
        match r1 with
        | [] => none
        | c1 :: r2 =>
          if c1 = ',' then
            match decElems f r2 with
            | some (vs, r3) => some (.cons v vs, r3)
            | none => none
          else if c1 = ']' then some (.cons v .nil, r2)
          else none := by
  conv_lhs => unfold decElems
  try dsimp only
  rw [if_neg h]

theorem decFields_rbrace (f : Nat) (r : List Char) :
    decFields (f + 1) ('\x7d' :: r) = some (.nil, r) := by
  conv_lhs => unfold decFields
  try dsimp only
  rw [if_pos rfl]

theorem decFields_quote (f : Nat) (r : List Char) :
    decFields (f + 1) ('\x22' :: r) =
      match decStr r with
      | none => none
      | some (kcs, r1) =>
        match r1 with
        | [] => none
        | c1 :: r2 =>
          if c1 = ':' then
            match decVal f r2 with
            | none => none
            | some (v, r3) =>
              match r3 with
              | [] => none
              | c2 :: r4 =>
                if c2 = ',' then
                  match decFields f r4 with
                  | some (fs, r5) => some (.cons (String.mk kcs) v fs, r5)
                  | none => none
                else if c2 = '\x7d' then some (.cons (String.mk kcs) v .nil, r4)
                else none
          else none := by
  conv_lhs => unfold decFields
  try dsimp only
  rw [if_neg (by decide), if_pos rfl]

theorem sizeV_pos (v : JValue) : 1 ≤ sizeV v := by
  cases v <;> simp [sizeV]

theorem sizeE_pos (xs : JElems) : 1 ≤ sizeE xs := by
  cases xs <;> simp [sizeE]

theorem sizeF_pos (fs : JFields) : 1 ≤ sizeF fs := by
  cases fs <;> simp [sizeF]

theorem encodeVal_head (v : JValue) :
    ∃ c cs, encodeVal v = c :: cs ∧ c ≠ ']' ∧ c ≠ '\x7d' := by
  cases v with
  | str s => exact ⟨'\x22', _, rfl, by decide, by decide⟩
  | num n =>
    cases n with
    | ofNat m =>
      have hne := natChars_ne_nil m
      obtain ⟨c, cs, hc⟩ := List.exists_cons_of_ne_nil hne
      have hdig : isDigitCh c = true := natChars_all_digits m c (by simp [hc])
      have h2 := digit_ne hdig
      exact ⟨c, cs, by simp [encodeVal, encodeInt, hc], h2.2.2.2.2.2.2.2.1,
        h2.2.2.2.2.2.2.2.2.1⟩
    | negSucc m => exact ⟨'-', _, rfl, by decide, by decide⟩
  | bool b => cases b with
    | true => exact ⟨'t', _, rfl, by decide, by decide⟩
    | false => exact ⟨'f', _, rfl, by decide, by decide⟩
  | null => exact ⟨'n', _, rfl, by decide, by decide⟩
  | arr xs => exact ⟨'[', _, rfl, by decide, by decide⟩
  | obj fs => exact ⟨'\x7b', _, rfl, by decide, by decide⟩

mutual

theorem decVal_encode : ∀ (v : JValue) (fuel : Nat) (rest : List Char),
    sizeV v ≤ fuel → noDigitStart rest →
    decVal fuel (encodeVal v ++ rest) = some (v, rest)
  | .str s, fuel, rest, hf, _ => by
    have h1 : 1 ≤ fuel := le_trans (sizeV_pos _) hf
    obtain ⟨f, rfl⟩ : ∃ f, fuel = f + 1 := ⟨fuel - 1, by omega⟩
    simp only [encodeVal, encodeStrChars, List.cons_append, List.append_assoc,
      List.singleton_append]
    rw [decVal_quote, decStr_append_escape]
    rfl
  | .num n, fuel, rest, hf, hr => by
    have h1 : 1 ≤ fuel := le_trans (sizeV_pos _) hf
    obtain ⟨f, rfl⟩ : ∃ f, fuel = f + 1 := ⟨fuel - 1, by omega⟩
    cases n with
    | ofNat m =>
      obtain ⟨c, cs, hc⟩ := List.exists_cons_of_ne_nil (natChars_ne_nil m)
      have hdig : isDigitCh c = true := natChars_all_digits m c (by simp [hc])
      simp only [encodeVal, encodeInt]
      rw [hc, List.cons_append, decVal_digit f _ hdig, ← List.cons_append, ← hc]
      have hsw := takeWhile_all_append isDigitCh (natChars m) rest
        (natChars_all_digits m) hr
      rw [hsw.1, hsw.2, parseNatChars_natChars]
    | negSucc m =>
      simp only [encodeVal, encodeInt, List.cons_append]
      rw [decVal_dash]
      have hsw := takeWhile_all_append isDigitCh (natChars (m + 1)) rest
        (natChars_all_digits _) hr
      rw [hsw.1, hsw.2, parseNatChars_natChars, if_neg (natChars_ne_nil (m + 1))]
      have hneg : (-(((m : Nat) + 1 : Nat) : Int)) = Int.negSucc m := by
        rw [Int.negSucc_eq]
        push_cast
        ring
      rw [hneg]
  | .bool true, fuel, rest, hf, _ => by
    have h1 : 1 ≤ fuel := le_trans (sizeV_pos _) hf
    obtain ⟨f, rfl⟩ : ∃ f, fuel = f + 1 := ⟨fuel - 1, by omega⟩
    simp only [encodeVal, List.cons_append, List.nil_append]
    rw [decVal_true]
  | .bool false, fuel, rest, hf, _ => by
    have h1 : 1 ≤ fuel := le_trans (sizeV_pos _) hf
    obtain ⟨f, rfl⟩ : ∃ f, fuel = f + 1 := ⟨fuel - 1, by omega⟩
    simp only [encodeVal, List.cons_append, List.nil_append]
    rw [decVal_false]
  | .null, fuel, rest, hf, _ => by
    have h1 : 1 ≤ fuel := le_trans (sizeV_pos _) hf
    obtain ⟨f, rfl⟩ : ∃ f, fuel = f + 1 := ⟨fuel - 1, by omega⟩
    simp only [encodeVal, List.cons_append, List.nil_append]
    rw [decVal_null]
  | .arr xs, fuel, rest, hf, _ => by
    have h1 : 1 ≤ fuel := le_trans (sizeV_pos _) hf
    obtain ⟨f, rfl⟩ : ∃ f, fuel = f + 1 := ⟨fuel - 1, by omega⟩
    have hE : sizeE xs ≤ f := by
      simp only [sizeV] at hf
      omega
    simp only [encodeVal, List.cons_append, List.append_assoc,
      List.singleton_append, List.nil_append]
    rw [decVal_lbrack, decElems_encode xs f rest hE]
  | .obj fs, fuel, rest, hf, _ => by
    have h1 : 1 ≤ fuel := le_trans (sizeV_pos _) hf
    obtain ⟨f, rfl⟩ : ∃ f, fuel = f + 1 := ⟨fuel - 1, by omega⟩
    have hF : sizeF fs ≤ f := by
      simp only [sizeV] at hf
      omega
    simp only [encodeVal, List.cons_append, List.append_assoc,
      List.singleton_append, List.nil_append]
    rw [decVal_lbrace, decFields_encode fs f rest hF]

theorem decElems_encode : ∀ (xs : JElems) (fuel : Nat) (rest : List Char),
    sizeE xs ≤ fuel →
    decElems fuel (encodeElems xs ++ ']' :: rest) = some (xs, rest)
  | .nil, fuel, rest, hf => by
    have h1 : 1 ≤ fuel := le_trans (sizeE_pos _) hf
    obtain ⟨f, rfl⟩ : ∃ f, fuel = f + 1 := ⟨fuel - 1, by omega⟩
    simp only [encodeElems, List.nil_append]
    exact decElems_rbrack f rest
  | .cons v .nil, fuel, rest, hf => by
    have h1 : 1 ≤ fuel := le_trans (sizeE_pos _) hf
    obtain ⟨f, rfl⟩ : ∃ f, fuel = f + 1 := ⟨fuel - 1, by omega⟩
    have hv : sizeV v ≤ f := by
      have := sizeV_pos v
      simp only [sizeE] at hf
      omega
    simp only [encodeElems]
    obtain ⟨c, cs, hc, hne, _⟩ := encodeVal_head v
    rw [hc, List.cons_append, decElems_cons f _ hne, ← List.cons_append, ← hc]
    rw [decVal_encode v f (']' :: rest) hv (noDigitStart_cons (by decide) rest)]
    simp
  | .cons v (.cons w tl), fuel, rest, hf => by
    have h1 : 1 ≤ fuel := le_trans (sizeE_pos _) hf
    obtain ⟨f, rfl⟩ : ∃ f, fuel = f + 1 := ⟨fuel - 1, by omega⟩
    have hv : sizeV v ≤ f := by
      simp only [sizeE] at hf
      omega
    have htl : sizeE (.cons w tl) ≤ f := by
      simp only [sizeE] at hf ⊢
      omega
    have hstep : encodeElems (.cons v (.cons w tl)) =
        encodeVal v ++ ',' :: encodeElems (.cons w tl) := rfl
    rw [hstep]
    simp only [List.append_assoc, List.cons_append]
    obtain ⟨c, cs, hc, hne, _⟩ := encodeVal_head v
    rw [hc, List.cons_append, decElems_cons f _ hne, ← List.cons_append, ← hc]
    rw [decVal_encode v f (',' :: (encodeElems (.cons w tl) ++ ']' :: rest)) hv
      (noDigitStart_cons (by decide) _)]
    have ih := decElems_encode (.cons w tl) f rest htl
    simp [ih]

theorem decFields_encode : ∀ (fs : JFields) (fuel : Nat) (rest : List Char),
    sizeF fs ≤ fuel →
    decFields fuel (encodeFields fs ++ '\x7d' :: rest) = some (fs, rest)
  | .nil, fuel, rest, hf => by
    have h1 : 1 ≤ fuel := le_trans (sizeF_pos _) hf
    obtain ⟨f, rfl⟩ : ∃ f, fuel = f + 1 := ⟨fuel - 1, by omega⟩
    simp only [encodeFields, List.nil_append]
    exact decFields_rbrace f rest
  | .cons k v .nil, fuel, rest, hf => by
    have h1 : 1 ≤ fuel := le_trans (sizeF_pos _) hf
    obtain ⟨f, rfl⟩ : ∃ f, fuel = f + 1 := ⟨fuel - 1, by omega⟩
    have hv : sizeV v ≤ f := by
      have := sizeV_pos v
      simp only [sizeF] at hf
      omega
    simp only [encodeFields, encodeStrChars, List.cons_append, List.append_assoc,
      List.singleton_append]
    rw [decFields_quote, decStr_append_escape]
    have hval := decVal_encode v f ('\x7d' :: rest) hv
      (noDigitStart_cons (by decide) rest)
    simp [hval]
  | .cons k v (.cons k2 w tl), fuel, rest, hf => by
    have h1 : 1 ≤ fuel := le_trans (sizeF_pos _) hf
    obtain ⟨f, rfl⟩ : ∃ f, fuel = f + 1 := ⟨fuel - 1, by omega⟩
    have hv : sizeV v ≤ f := by
      simp only [sizeF] at hf
      omega
    have htl : sizeF (.cons k2 w tl) ≤ f := by
      simp only [sizeF] at hf ⊢
      omega
    have hstep : encodeFields (.cons k v (.cons k2 w tl)) =
        encodeStrChars k ++ ':' :: encodeVal v ++ ',' :: encodeFields (.cons k2 w tl) := rfl
    rw [hstep]
    simp only [encodeStrChars, List.cons_append, List.append_assoc,
      List.singleton_append]
    rw [decFields_quote, decStr_append_escape]
    have hval := decVal_encode v f
      (',' :: (encodeFields (.cons k2 w tl) ++ '\x7d' :: rest)) hv
      (noDigitStart_cons (by decide) _)
    have ih := decFields_encode (.cons k2 w tl) f rest htl
    simp [hval, ih]

end

mutual

theorem sizeV_le_len : ∀ v : JValue, sizeV v ≤ (encodeVal v).length
  | .str s => by
    simp [sizeV, encodeVal, encodeStrChars]
  | .num n => by
    cases n with
    | ofNat m =>
      have := List.length_pos.mpr (natChars_ne_nil m)
      simp only [sizeV, encodeVal, encodeInt]
      omega
    | negSucc m =>
      simp only [sizeV, encodeVal, encodeInt, List.length_cons]
      omega
  | .bool b => by
    cases b <;> simp [sizeV, encodeVal]
  | .null => by
    simp [sizeV, encodeVal]
  | .arr xs => by
    have := sizeE_le_len xs
    simp only [sizeV, encodeVal, List.length_cons, List.length_append,
      List.length_singleton]
    omega
  | .obj fs => by
    have := sizeF_le_len fs
    simp only [sizeV, encodeVal, List.length_cons, List.length_append,
      List.length_singleton]
    omega

theorem sizeE_le_len : ∀ xs : JElems, sizeE xs ≤ (encodeElems xs).length + 1
  | .nil => by
    simp [sizeE, encodeElems]
  | .cons v .nil => by
    have h1 := sizeV_le_len v
    have h2 := sizeV_pos v
    have hs : sizeE (.cons v .nil) = 1 + max (sizeV v) 1 := rfl
    have hstep : encodeElems (.cons v .nil) = encodeVal v := rfl
    rw [hs, hstep]
    omega
  | .cons v (.cons w tl) => by
    have h1 := sizeV_le_len v
    have h2 := sizeE_le_len (.cons w tl)
    have hs : sizeE (.cons v (.cons w tl)) =
        1 + max (sizeV v) (sizeE (.cons w tl)) := rfl
    have hstep : encodeElems (.cons v (.cons w tl)) =
        encodeVal v ++ ',' :: encodeElems (.cons w tl) := rfl
    rw [hs, hstep]
    simp only [List.length_append, List.length_cons]
    omega

theorem sizeF_le_len : ∀ fs : JFields, sizeF fs ≤ (encodeFields fs).length + 1
  | .nil => by
    simp [sizeF, encodeFields]
  | .cons k v .nil => by
    have h1 := sizeV_le_len v
    have h2 := sizeV_pos v
    have hs : sizeF (.cons k v .nil) = 1 + max (sizeV v) 1 := rfl
    have hstep : encodeFields (.cons k v .nil) =
        encodeStrChars k ++ ':' :: encodeVal v := rfl
    rw [hs, hstep]
    simp only [List.length_append, List.length_cons]
    omega
  | .cons k v (.cons k2 w tl) => by
    have h1 := sizeV_le_len v
    have h2 := sizeF_le_len (.cons k2 w tl)
    have hs : sizeF (.cons k v (.cons k2 w tl)) =
        1 + max (sizeV v) (sizeF (.cons k2 w tl)) := rfl
    have hstep : encodeFields (.cons k v (.cons k2 w tl)) =
        encodeStrChars k ++ ':' :: encodeVal v ++ ',' :: encodeFields (.cons k2 w tl) := rfl
    rw [hs, hstep]
    simp only [List.length_append, List.length_cons]
    omega

end

theorem parse_encodeJson (v : JValue) : parseJson (encodeJson v) = some v := by
  show (match decVal ((encodeVal v).length + 1) (encodeVal v) with
        | some (w, []) => some w
        | _ => none) = some v
  have h := decVal_encode v ((encodeVal v).length + 1) []
    (by have := sizeV_le_len v; omega) noDigitStart_nil
  rw [List.append_nil] at h
  rw [h]

/-! ## Cipher lemmas -/

theorem bytesToStr_strToBytes (s : String) : bytesToStr (strToBytes s) = s := by
  unfold bytesToStr strToBytes
  rw [List.map_map]
  have h : s.data.map (Char.ofNat ∘ Char.toNat) = s.data.map id :=
    List.map_congr_left (fun c _ => Char.ofNat_toNat c)
  rw [h, List.map_id]

theorem xorStream_length (key iv : List Nat) :
    ∀ (i : Nat) (bs : List Nat), (xorStream key iv i bs).length = bs.length
  | _, [] => by simp [xorStream]
  | i, b :: bs => by
    simp [xorStream, xorStream_length key iv (i + 1) bs]

theorem xorStream_involutive (key iv : List Nat) :
    ∀ (i : Nat) (bs : List Nat), xorStream key iv i (xorStream key iv i bs) = bs
  | _, [] => by simp [xorStream]
  | i, b :: bs => by
    simp only [xorStream, xorStream_involutive key iv (i + 1) bs]
    rw [Nat.xor_assoc, Nat.xor_self, Nat.xor_zero]

theorem byteListCode_inj : ∀ (a b : List Nat), (∀ x ∈ a, x < 256) →
    (∀ x ∈ b, x < 256) → byteListCode a = byteListCode b → a = b
  | [], [], _, _, _ => rfl
  | [], y :: ys, _, _, h => by
    exfalso
    simp only [byteListCode] at h
    omega
  | x :: xs, [], _, _, h => by
    exfalso
    simp only [byteListCode] at h
    omega
  | x :: xs, y :: ys, ha, hb, h => by
    have hx : x < 256 := ha x (by simp)
    have hy : y < 256 := hb y (by simp)
    simp only [byteListCode] at h
    have e1 : ((x + 1) + 257 * byteListCode xs) % 257 = x + 1 := by
      rw [Nat.add_mul_mod_self_left]
      exact Nat.mod_eq_of_lt (by omega)
    have e2 : ((y + 1) + 257 * byteListCode ys) % 257 = y + 1 := by
      rw [Nat.add_mul_mod_self_left]
      exact Nat.mod_eq_of_lt (by omega)
    have hxy : x = y := by
      have := congrArg (fun t => t % 257) h
      simp only [e1, e2] at this
      omega
    subst hxy
    have hcode : byteListCode xs = byteListCode ys := by omega
    rw [byteListCode_inj xs ys (fun z hz => ha z (by simp [hz]))
      (fun z hz => hb z (by simp [hz])) hcode]

theorem gcmTag_length (key iv ct : List Nat) : (gcmTag key iv ct).length = 16 := by
  simp [gcmTag]

theorem gcmTag_key_inj {k1 k2 : List Nat} (iv ct : List Nat)
    (h1 : ∀ x ∈ k1, x < 256) (h2 : ∀ x ∈ k2, x < 256) (hne : k1 ≠ k2) :
    gcmTag k1 iv ct ≠ gcmTag k2 iv ct := by
  intro h
  apply hne
  simp only [gcmTag, List.cons.injEq] at h
  exact byteListCode_inj k1 k2 h1 h2 (Nat.pair_eq_pair.mp h.1).1

theorem hexDigitVal_lt {c : Char} {v : Nat} (h : hexDigitVal c = some v) :
    v < 16 := by
  unfold hexDigitVal at h
  split_ifs at h <;> simp_all <;> omega

theorem hexPairsToBytes_lt : ∀ l : List Char, ∀ b ∈ hexPairsToBytes l, b < 256
  | [] => by simp [hexPairsToBytes]
  | [c] => by simp [hexPairsToBytes]
  | c1 :: c2 :: rest => by
    intro b hb
    unfold hexPairsToBytes at hb
    cases hv1 : hexDigitVal c1 with
    | none => simp [hv1] at hb
    | some v1 =>
      cases hv2 : hexDigitVal c2 with
      | none => simp [hv1, hv2] at hb
      | some v2 =>
        simp only [hv1, hv2, List.mem_cons] at hb
        rcases hb with hb | hb
        · have := hexDigitVal_lt hv1
          have := hexDigitVal_lt hv2
          omega
        · exact hexPairsToBytes_lt rest b hb

theorem hexToBytes_lt (s : String) : ∀ b ∈ hexToBytes s, b < 256 :=
  hexPairsToBytes_lt s.data

theorem isLowerHex_hexDigitVal {c : Char} (h : isLowerHexDigit c = true) :
    ∃ v, hexDigitVal c = some v := by
  simp only [isLowerHexDigit, Bool.or_eq_true, Bool.and_eq_true,
    decide_eq_true_eq] at h
  unfold hexDigitVal
  split_ifs with h1 h2 h3
  · exact ⟨_, rfl⟩
  · exact ⟨_, rfl⟩
  · exact ⟨_, rfl⟩
  · exfalso
    omega

theorem hexPairsToBytes_length_allHex :
    ∀ l : List Char, (∀ c ∈ l, isLowerHexDigit c = true) →
      (hexPairsToBytes l).length = l.length / 2
  | [] => by simp [hexPairsToBytes]
  | [c] => by
    intro _
    simp [hexPairsToBytes]
  | c1 :: c2 :: rest => by
    intro h
    obtain ⟨v1, hv1⟩ := isLowerHex_hexDigitVal (h c1 (by simp))
    obtain ⟨v2, hv2⟩ := isLowerHex_hexDigitVal (h c2 (by simp))
    have ih := hexPairsToBytes_length_allHex rest (fun c hc => h c (by simp [hc]))
    unfold hexPairsToBytes
    simp only [hv1, hv2, List.length_cons, ih]
    omega

theorem validateMasterKey_ok_iff (key : String) :
    validateMasterKeyM key = .ok () ↔
      (key.length = 64 ∧ ∀ c ∈ key.data, isLowerHexDigit c = true) := by
  unfold validateMasterKeyM
  by_cases h1 : key = ""
  · subst h1
    simp
  · rw [if_neg h1]
    by_cases h2 : key.data.all isLowerHexDigit = true
    · rw [if_neg (by simp [h2])]
      by_cases h3 : key.length = 64
      · rw [if_neg (fun hc => hc h3)]
        constructor
        · intro _
          exact ⟨h3, fun c hc => List.all_eq_true.mp h2 c hc⟩
        · intro _
          rfl
      · rw [if_pos h3]
        constructor
        · intro h
          cases h
        · intro hx
          exact absurd hx.1 h3
    · rw [if_pos (by simp [h2])]
      constructor
      · intro h
        cases h
      · intro hx
        exact absurd (List.all_eq_true.mpr hx.2) h2

theorem masterKey_hexToBytes_length {key : String}
    (h : validateMasterKeyM key = .ok ()) : (hexToBytes key).length = 32 := by
  obtain ⟨hlen, hhex⟩ := (validateMasterKey_ok_iff key).mp h
  unfold hexToBytes
  rw [hexPairsToBytes_length_allHex key.data hhex]
  have hdl : key.data.length = 64 := hlen
  omega

theorem AES_encrypt_ok (data key : String) (iv : List Nat)
    (hk : (hexToBytes key).length = 32) :
    AESEncryption.encrypt data key iv =
      .ok (iv ++ (gcmTag (hexToBytes key) iv
          (xorStream (hexToBytes key) iv 0 (strToBytes data)) ++
        xorStream (hexToBytes key) iv 0 (strToBytes data))) := by
  unfold AESEncryption.encrypt
  rw [if_neg (by omega)]

theorem AES_roundtrip (data key : String) (iv : List Nat)
    (hk : (hexToBytes key).length = 32) (hiv : iv.length = 16) :
    ∀ blob, AESEncryption.encrypt data key iv = .ok blob →
      AESEncryption.decrypt blob key = .ok data := by
  intro blob hb
  rw [AES_encrypt_ok data key iv hk] at hb
  cases hb
  unfold AESEncryption.decrypt
  rw [if_neg (by omega)]
  have htag : (gcmTag (hexToBytes key) iv
      (xorStream (hexToBytes key) iv 0 (strToBytes data))).length = 16 :=
    gcmTag_length _ _ _
  have h1 : (iv ++ (gcmTag (hexToBytes key) iv
      (xorStream (hexToBytes key) iv 0 (strToBytes data)) ++
      xorStream (hexToBytes key) iv 0 (strToBytes data))).take 16 = iv :=
    List.take_left' hiv
  have h2 : (iv ++ (gcmTag (hexToBytes key) iv
      (xorStream (hexToBytes key) iv 0 (strToBytes data)) ++
      xorStream (hexToBytes key) iv 0 (strToBytes data))).drop 16 =
      gcmTag (hexToBytes key) iv
        (xorStream (hexToBytes key) iv 0 (strToBytes data)) ++
      xorStream (hexToBytes key) iv 0 (strToBytes data) :=
    List.drop_left' hiv
  have h3 : (iv ++ (gcmTag (hexToBytes key) iv
      (xorStream (hexToBytes key) iv 0 (strToBytes data)) ++
      xorStream (hexToBytes key) iv 0 (strToBytes data))).drop 32 =
      xorStream (hexToBytes key) iv 0 (strToBytes data) := by
    have hsplit : (32 : Nat) = 16 + 16 := rfl
    rw [hsplit, ← List.drop_drop, h2]
    exact List.drop_left' htag
  have hlen : (iv ++ (gcmTag (hexToBytes key) iv
      (xorStream (hexToBytes key) iv 0 (strToBytes data)) ++
      xorStream (hexToBytes key) iv 0 (strToBytes data))).length =
      32 + (xorStream (hexToBytes key) iv 0 (strToBytes data)).length := by
    simp only [List.length_append, htag]
    omega
  dsimp only
  rw [h2, h1, h3, List.take_left' htag, if_neg (by omega), if_neg (by simp),
    xorStream_involutive, bytesToStr_strToBytes]

/-! ## Manager lemmas -/

namespace CredentialsManager

theorem load_not_found (m : CredentialsManager) (key : String)
    (hk : validateKeyM key = .ok ()) (h : m.store key = none) :
    m.load key = .error (.credentials ("Credentials not found for key: " ++ key)) := by
  unfold load
  rw [hk, h]

theorem load_empty_blob (m : CredentialsManager) (key : String)
    (hk : validateKeyM key = .ok ()) (h : m.store key = some []) :
    m.load key = .error (.credentials ("Credentials not found for key: " ++ key)) := by
  unfold load
  rw [hk, h]
  simp

theorem load_decrypt_error (m : CredentialsManager) (key : String)
    (hk : validateKeyM key = .ok ()) (blob : List Nat)
    (hb : m.store key = some blob) (hne : blob ≠ []) (e : CMError)
    (hd : AESEncryption.decrypt blob m.masterKey = .error e) :
    m.load key = .error e := by
  unfold load
  rw [hk, hb]
  simp [hne, hd]

theorem load_parse_error (m : CredentialsManager) (key : String)
    (hk : validateKeyM key = .ok ()) (blob : List Nat)
    (hb : m.store key = some blob) (hne : blob ≠ []) (s : String)
    (hd : AESEncryption.decrypt blob m.masterKey = .ok s)
    (hp : parseJson s = none) :
    m.load key = .error (.credentials "Failed to load credentials: JSON parse error") := by
  unfold load
  rw [hk, hb]
  simp [hne, hd, hp]

theorem save_ok (m : CredentialsManager) (key : String) (fs : JFields)
    (iv : List Nat) (hk : validateKeyM key = .ok ())
    (hmk : (hexToBytes m.masterKey).length = 32) :
    m.save key (.obj fs) iv = .ok ⟨m.masterKey, fun k2 =>
      if k2 = key then
        some (iv ++ (gcmTag (hexToBytes m.masterKey) iv
            (xorStream (hexToBytes m.masterKey) iv 0
              (strToBytes (encodeJson (.obj fs)))) ++
          xorStream (hexToBytes m.masterKey) iv 0
            (strToBytes (encodeJson (.obj fs)))))
      else m.store k2⟩ := by
  unfold save
  rw [hk, AES_encrypt_ok _ _ _ hmk]
  rfl

theorem load_ok (m : CredentialsManager) (key : String)
    (hk : validateKeyM key = .ok ()) (blob : List Nat) (v : JValue)
    (hb : m.store key = some blob) (hne : blob ≠ [])
    (hd : AESEncryption.decrypt blob m.masterKey = .ok (encodeJson v)) :
    m.load key = .ok v := by
  unfold load
  rw [hk, hb]
  simp [hne, hd, parse_encodeJson]

theorem load_fresh_saved (mk : String) (store0 : String → Option (List Nat))
    (key : String) (fs : JFields) (iv : List Nat)
    (hk : validateKeyM key = .ok ())
    (hmk : (hexToBytes mk).length = 32) (hiv : iv.length = 16) :
    (⟨mk, fun k2 => if k2 = key then
        some (iv ++ (gcmTag (hexToBytes mk) iv
            (xorStream (hexToBytes mk) iv 0
              (strToBytes (encodeJson (.obj fs)))) ++
          xorStream (hexToBytes mk) iv 0
            (strToBytes (encodeJson (.obj fs)))))
      else store0 k2⟩ : CredentialsManager).load key = .ok (.obj fs) := by
  have hblob : (iv ++ (gcmTag (hexToBytes mk) iv
      (xorStream (hexToBytes mk) iv 0
        (strToBytes (encodeJson (.obj fs)))) ++
      xorStream (hexToBytes mk) iv 0
        (strToBytes (encodeJson (.obj fs))))) ≠ [] := by
    intro hcon
    have hl := congrArg List.length hcon
    simp only [List.length_append, gcmTag_length, List.length_nil] at hl
    omega
  exact load_ok _ key hk _ (.obj fs) (if_pos rfl) hblob
    (AES_roundtrip (encodeJson (.obj fs)) mk iv hmk hiv _
      (AES_encrypt_ok (encodeJson (.obj fs)) mk iv hmk))

theorem save_load_roundtrip (m : CredentialsManager) (key : String)
    (fs : JFields) (iv : List Nat) (hk : validateKeyM key = .ok ())
    (hmk : (hexToBytes m.masterKey).length = 32) (hiv : iv.length = 16) :
    ∃ m2, m.save key (.obj fs) iv = .ok m2 ∧ m2.load key = .ok (.obj fs) ∧
      m2.masterKey = m.masterKey ∧ ∀ k2, k2 ≠ key → m2.store k2 = m.store k2 :=
  ⟨_, save_ok m key fs iv hk hmk,
    load_fresh_saved m.masterKey m.store key fs iv hk hmk hiv, rfl,
    fun _ hne => if_neg hne⟩

end CredentialsManager

/-! ## File storage lemmas -/

theorem sanitizeKey_allowed (key : String) :
    ∀ c ∈ (sanitizeKey key).data, isAllowedChar c = true := by
  intro c hc
  have hc2 : c ∈ stripTrailingDots (stripLeadingDots
      (key.data.map (fun d => if isAllowedChar d then d else '_'))) := hc
  have hc3 : c ∈ stripLeadingDots
      (key.data.map (fun d => if isAllowedChar d then d else '_')) := by
    unfold stripTrailingDots at hc2
    exact List.mem_reverse.mp
      ((List.dropWhile_suffix _).sublist.subset (List.mem_reverse.mp hc2))
  have hc4 : c ∈ key.data.map (fun d => if isAllowedChar d then d else '_') :=
    (List.dropWhile_suffix _).sublist.subset hc3
  obtain ⟨d, _, rfl⟩ := List.mem_map.mp hc4
  by_cases hd : isAllowedChar d
  · simp [hd]
  · simp only [if_neg hd]
    decide

theorem splitSlash_cons (c : Char) (rest : List Char) :
    splitSlash (c :: rest) =
      match splitSlash rest with
      | [] => [[c]]
      | s :: ss => if c = '/' then [] :: s :: ss else (c :: s) :: ss := by
  conv_lhs => unfold splitSlash

theorem splitSlash_ne_nil : ∀ l : List Char, splitSlash l ≠ []
  | [] => by simp [splitSlash]
  | c :: rest => by
    rw [splitSlash_cons]
    cases h : splitSlash rest with
    | nil => exact absurd h (splitSlash_ne_nil rest)
    | cons s ss =>
      by_cases hc : c = '/' <;> simp [hc]

theorem splitSlash_append_slash : ∀ (x y : List Char),
    splitSlash (x ++ '/' :: y) = splitSlash x ++ splitSlash y
  | [], y => by
    rw [List.nil_append, splitSlash_cons]
    cases h : splitSlash y with
    | nil => exact absurd h (splitSlash_ne_nil y)
    | cons s ss => simp [splitSlash]
  | c :: x, y => by
    rw [List.cons_append, splitSlash_cons, splitSlash_cons c x,
      splitSlash_append_slash x y]
    cases h : splitSlash x with
    | nil => exact absurd h (splitSlash_ne_nil x)
    | cons s ss =>
      by_cases hc : c = '/' <;> simp [hc]

theorem splitSlash_no_slash : ∀ l : List Char,
    (∀ c ∈ l, ¬ c = '/') → splitSlash l = [l]
  | [] => fun _ => by simp [splitSlash]
  | c :: rest => fun h => by
    rw [splitSlash_cons,
      splitSlash_no_slash rest (fun d hd => h d (List.mem_cons_of_mem c hd))]
    simp [h c (List.mem_cons_self c rest)]

theorem normalizeComponents_append_single (X : List (List Char)) (f : List Char)
    (h1 : f ≠ []) (h2 : f ≠ ['.']) (h3 : f ≠ ['.', '.']) :
    normalizeComponents (X ++ [f]) = normalizeComponents X ++ [f] := by
  unfold normalizeComponents
  rw [List.foldl_append]
  simp [List.foldl, h1, h2, h3]

theorem joinComps_cons_cons (x y : List Char) (xs : List (List Char)) :
    joinComps (x :: y :: xs) = x ++ '/' :: joinComps (y :: xs) := by
  conv_lhs => unfold joinComps

theorem joinComps_append_single : ∀ (X : List (List Char)) (f : List Char),
    X ≠ [] → joinComps (X ++ [f]) = joinComps X ++ '/' :: f
  | [], _, h => absurd rfl h
  | [x], f, _ => by simp [joinComps]
  | x :: y :: X, f, _ => by
    rw [List.cons_append x (y :: X) [f], List.cons_append y X [f],
      joinComps_cons_cons, ← List.cons_append y X [f],
      joinComps_append_single (y :: X) f (by simp), joinComps_cons_cons]
    simp

theorem isPrefixOf_append_self {α : Type} [BEq α] [LawfulBEq α] (l t : List α) :
    l.isPrefixOf (l ++ t) = true := by
  induction l with
  | nil => simp [List.isPrefixOf]
  | cons a l ih => simp [List.isPrefixOf, ih]

theorem joinComps_isPrefixOf_append (N : List (List Char)) (f : List Char) :
    ('/' :: joinComps N).isPrefixOf ('/' :: joinComps (N ++ [f])) = true := by
  cases N with
  | nil => simp [joinComps, List.isPrefixOf]
  | cons n ns =>
    rw [joinComps_append_single (n :: ns) f (by simp)]
    simp [List.isPrefixOf, isPrefixOf_append_self]

theorem isAllowedChar_ne_slash (c : Char) (h : isAllowedChar c = true) :
    ¬ c = '/' := by
  intro hc
  subst hc
  exact absurd h (by decide)

theorem fname_no_slash (key : String) :
    ∀ c ∈ (sanitizeKey key ++ ".json").data, ¬ c = '/' := by
  intro c hc
  rw [String.data_append] at hc
  rcases List.mem_append.mp hc with h | h
  · exact isAllowedChar_ne_slash c (sanitizeKey_allowed key c h)
  · have hd : (".json" : String).data = ['.', 'j', 's', 'o', 'n'] := rfl
    rw [hd] at h
    simp only [List.mem_cons, List.not_mem_nil, or_false] at h
    rcases h with rfl | rfl | rfl | rfl | rfl <;> decide

theorem fname_data_length (key : String) :
    5 ≤ (sanitizeKey key ++ ".json").data.length := by
  rw [String.data_append, List.length_append]
  have h5 : ((".json" : String).data).length = 5 := rfl
  omega

theorem fname_data_ne_special (key : String) :
    (sanitizeKey key ++ ".json").data ≠ [] ∧
    (sanitizeKey key ++ ".json").data ≠ ['.'] ∧
    (sanitizeKey key ++ ".json").data ≠ ['.', '.'] := by
  have h5 := fname_data_length key
  refine ⟨?_, ?_, ?_⟩ <;>
    (intro h
     have hl := congrArg List.length h
     simp only [List.length_nil, List.length_cons] at hl
     omega)

namespace FileStorage

theorem getFilePath_data (base key : String) :
    (getFilePath base key).data =
      base.data ++ '/' :: (sanitizeKey key ++ ".json").data := by
  unfold getFilePath
  rw [String.data_append, String.data_append, List.append_assoc]
  rfl

theorem components_getFilePath (base key : String) :
    normalizeComponents (splitSlash (getFilePath base key).data) =
      normalizeComponents (splitSlash base.data) ++
        [(sanitizeKey key ++ ".json").data] := by
  obtain ⟨h1, h2, h3⟩ := fname_data_ne_special key
  rw [getFilePath_data, splitSlash_append_slash,
    splitSlash_no_slash _ (fname_no_slash key)]
  exact normalizeComponents_append_single _ _ h1 h2 h3

theorem resolve_getFilePath (base key : String) :
    resolvePath (getFilePath base key) =
      String.mk ('/' :: joinComps (normalizeComponents (splitSlash base.data) ++
        [(sanitizeKey key ++ ".json").data])) := by
  unfold resolvePath
  rw [components_getFilePath]

theorem verifyPath_getFilePath (base key : String) :
    verifyPath base (getFilePath base key) = .ok () := by
  have h : strStartsWith (resolvePath (getFilePath base key))
      (resolvePath base) = true := by
    rw [resolve_getFilePath]
    unfold strStartsWith resolvePath
    exact joinComps_isPrefixOf_append _ _
  unfold verifyPath
  rw [if_pos h]

theorem isDescendant_getFilePath (base key : String) :
    isDescendant base (getFilePath base key) = true := by
  unfold isDescendant
  rw [components_getFilePath]
  exact isPrefixOf_append_self _ _

theorem verifyPath_outside (base p : String)
    (h : strStartsWith (resolvePath p) (resolvePath base) = false) :
    verifyPath base p =
      .error (.storage "Access denied: path traversal attempt detected") := by
  unfold verifyPath
  rw [if_neg (by simp [h])]

end FileStorage

theorem validateKeyM_error_shape (key : String) :
    validateKeyM key = .ok () ∨ ∃ msg, validateKeyM key = .error (.validation msg) := by
  unfold validateKeyM
  by_cases h1 : key = ""
  · rw [if_pos h1]
    exact .inr ⟨_, rfl⟩
  · rw [if_neg h1]
    by_cases h2 : 255 < key.length
    · rw [if_pos h2]
      exact .inr ⟨_, rfl⟩
    · rw [if_neg h2]
      exact .inl rfl

theorem validateKeyM_ok_iff (key : String) :
    validateKeyM key = .ok () ↔ (key ≠ "" ∧ key.length ≤ 255) := by
  unfold validateKeyM
  split_ifs with h1 h2
  · simp [h1]
  · constructor
    · intro h
      cases h
    · intro h
      omega
  · constructor
    · intro _
      exact ⟨h1, by omega⟩
    · intro _
      rfl

theorem validateMasterKey_error_shape (key : String) :
    validateMasterKeyM key = .ok () ∨
      ∃ msg, validateMasterKeyM key = .error (.validation msg) := by
  unfold validateMasterKeyM
  by_cases h1 : key = ""
  · rw [if_pos h1]
    exact .inr ⟨_, rfl⟩
  · rw [if_neg h1]
    by_cases h2 : ¬ key.data.all isLowerHexDigit
    · rw [if_pos h2]
      exact .inr ⟨_, rfl⟩
    · rw [if_neg h2]
      by_cases h3 : key.length ≠ 64
      · rw [if_pos h3]
        exact .inr ⟨_, rfl⟩
      · rw [if_neg h3]
        exact .inl rfl

theorem validateCredentialsM_obj_iff (credentials : JValue) :
    validateCredentialsM credentials = .ok () ↔
      ∃ fs, credentials = .obj fs := by
  cases credentials <;> simp [validateCredentialsM]

theorem validateCredentialsM_error_shape (credentials : JValue) :
    validateCredentialsM credentials = .ok () ∨
      ∃ msg, validateCredentialsM credentials = .error (.validation msg) := by
  cases credentials <;> simp [validateCredentialsM]

/-! ## Claim theorems -/

/-- C1: for every valid credentials object `C` (a plain object) and every
valid 64-lowercase-hex master key `K`, decrypting the encryption of the
JSON serialization of `C` under `K` returns that serialization, and
`load name` after `save name C` on the same manager returns a value
deep-equal (here: equal) to `C`. -/
theorem C1_roundtrip (K name : String) (C : JFields) (m : CredentialsManager)
    (iv : List Nat) (hK : validateMasterKeyM K = .ok ()) (hm : m.masterKey = K)
    (hname : validateKeyM name = .ok ()) (hiv : iv.length = 16) :
    (∀ blob, AESEncryption.encrypt (encodeJson (.obj C)) K iv = .ok blob →
      AESEncryption.decrypt blob K = .ok (encodeJson (.obj C))) ∧
    (∃ m2, m.save name (.obj C) iv = .ok m2 ∧ m2.load name = .ok (.obj C)) := by
  have hkb : (hexToBytes K).length = 32 := masterKey_hexToBytes_length hK
  refine ⟨fun blob hb => AES_roundtrip (encodeJson (.obj C)) K iv hkb hiv blob hb, ?_⟩
  obtain ⟨m2, h1, h2, _, _⟩ := CredentialsManager.save_load_roundtrip m name C iv
    hname (by rw [hm]; exact hkb) hiv
  exact ⟨m2, h1, h2⟩

/-- Closed instance of `C1_roundtrip` at a concrete key, credentials
object and IV. -/
theorem C1_roundtrip_witness :
    ∃ m2, (newManager (some wKey) wKey).save "db"
        (.obj (.cons "username" (.str "admin") .nil)) wIV = .ok m2 ∧
      m2.load "db" = .ok (.obj (.cons "username" (.str "admin") .nil)) :=
  (C1_roundtrip wKey "db" (.cons "username" (.str "admin") .nil)
    (newManager (some wKey) wKey) wIV rfl rfl rfl rfl).2

/-- C2 (amended): `setMasterKey` accepts exactly the strings matching
`^[a-f0-9]{64}$` and rejects every other string with a `ValidationError`,
so no invalid key passes `setMasterKey`; the constructor, however,
performs no validation: it stores any non-empty provided master-key
string unchanged (an absent or empty config key falls back to the
generated key), so an invalid key can reach the cipher when supplied at
construction. -/
theorem C2_setMasterKey_validates_constructor_does_not :
    (∀ (m : CredentialsManager) (k : String),
      (∃ m2, m.setMasterKey k = .ok m2 ∧ m2.masterKey = k ∧ m2.store = m.store) ↔
        (k.length = 64 ∧ ∀ c ∈ k.data, isLowerHexDigit c = true)) ∧
    (∀ (m : CredentialsManager) (k : String),
      ¬ (k.length = 64 ∧ ∀ c ∈ k.data, isLowerHexDigit c = true) →
      ∃ msg, m.setMasterKey k = .error (.validation msg)) ∧
    (∀ k gen, k ≠ "" → (newManager (some k) gen).masterKey = k) ∧
    (∀ gen, (newManager none gen).masterKey = gen ∧
      (newManager (some "") gen).masterKey = gen) := by
  refine ⟨?_, ?_, ?_, ?_⟩
  · intro m k
    constructor
    · intro ⟨m2, hok, _, _⟩
      rcases validateMasterKey_error_shape k with h | ⟨msg, h⟩
      · exact (validateMasterKey_ok_iff k).mp h
      · unfold CredentialsManager.setMasterKey at hok
        rw [h] at hok
        cases hok
    · intro h
      have hok := (validateMasterKey_ok_iff k).mpr h
      refine ⟨⟨k, m.store⟩, ?_, rfl, rfl⟩
      unfold CredentialsManager.setMasterKey
      rw [hok]
  · intro m k h
    rcases validateMasterKey_error_shape k with hok | ⟨msg, herr⟩
    · exact absurd ((validateMasterKey_ok_iff k).mp hok) h
    · refine ⟨msg, ?_⟩
      unfold CredentialsManager.setMasterKey
      rw [herr]
  · intro k gen hk
    simp [newManager, hk]
  · intro gen
    exact ⟨rfl, rfl⟩

/-- Counterexample to C2 as stated: the constructor accepts the
64-uppercase-character key (which the master-key validator rejects) and
stores it unchanged, and a subsequent `save` runs the cipher with that
invalid key without any `ValidationError`. -/
theorem C2_counterexample :
    (newManager (some wKeyUpper) wKey).masterKey = wKeyUpper ∧
    (∃ msg, validateMasterKeyM wKeyUpper = .error (.validation msg)) ∧
    (∃ m2, (newManager (some wKeyUpper) wKey).save "db" (.obj .nil) wIV = .ok m2) :=
  ⟨rfl, ⟨"Master key must be a valid hex string", rfl⟩, ⟨_, rfl⟩⟩

/-- Closed instance of `C2_setMasterKey_validates_constructor_does_not`:
the too-short key `"invalid"` is rejected by `setMasterKey`. -/
theorem C2_setMasterKey_witness :
    ∃ msg, (newManager (some wKey) wKey).setMasterKey "invalid" =
      .error (.validation msg) :=
  (C2_setMasterKey_validates_constructor_does_not.2.1
    (newManager (some wKey) wKey) "invalid" (by decide))

/-- C3: on a validated key, `load` fails with the not-found
`CredentialsError` when the backend has no blob (absence is an explicit
error, never a plain return); a decryption failure propagates to the
caller unchanged (an `EncryptionError`, which in the source is an
`instanceof CredentialsError`); and a JSON parse failure surfaces as a
wrapping `CredentialsError`. -/
theorem C3_load_error_cases (m : CredentialsManager) (key : String)
    (hk : validateKeyM key = .ok ()) :
    (m.store key = none →
      m.load key = .error (.credentials ("Credentials not found for key: " ++ key))) ∧
    (∀ blob e, m.store key = some blob → blob ≠ [] →
      AESEncryption.decrypt blob m.masterKey = .error e →
      m.load key = .error e) ∧
    (∀ blob s, m.store key = some blob → blob ≠ [] →
      AESEncryption.decrypt blob m.masterKey = .ok s → parseJson s = none →
      m.load key =
        .error (.credentials "Failed to load credentials: JSON parse error")) := by
  refine ⟨fun h => CredentialsManager.load_not_found m key hk h, ?_, ?_⟩
  · intro blob e hb hne hd
    exact CredentialsManager.load_decrypt_error m key hk blob hb hne e hd
  · intro blob s hb hne hd hp
    exact CredentialsManager.load_parse_error m key hk blob hb hne s hd hp

/-- Closed instance of `C3_load_error_cases`: a manager with an empty
backend yields the not-found error; a manager holding a 3-byte blob
yields the malformed-blob `EncryptionError`; a manager holding a valid
encryption of the non-JSON plaintext `"x"` yields the wrapped parse
error. -/
theorem C3_load_error_cases_witness :
    ((⟨wKey, fun _ => none⟩ : CredentialsManager).load "db" =
      .error (.credentials "Credentials not found for key: db")) ∧
    ((⟨wKey, fun k => if k = "db" then some [1, 2, 3] else none⟩ :
      CredentialsManager).load "db" =
      .error (.encryption "Decryption failed: malformed blob")) ∧
    ((⟨wKey, fun k => if k = "db" then
        some (wIV ++ (gcmTag (hexToBytes wKey) wIV
            (xorStream (hexToBytes wKey) wIV 0 (strToBytes "x")) ++
          xorStream (hexToBytes wKey) wIV 0 (strToBytes "x")))
      else none⟩ : CredentialsManager).load "db" =
      .error (.credentials "Failed to load credentials: JSON parse error")) := by
  refine ⟨(C3_load_error_cases _ "db" rfl).1 rfl,
    (C3_load_error_cases _ "db" rfl).2.1 [1, 2, 3] _ rfl (by decide) rfl,
    (C3_load_error_cases _ "db" rfl).2.2 _ "x" rfl ?_ ?_ rfl⟩
  · intro hcon
    have hl := congrArg List.length hcon
    simp only [List.length_append, gcmTag_length, List.length_nil] at hl
    omega
  · exact AES_roundtrip "x" wKey wIV rfl rfl _
      (AES_encrypt_ok "x" wKey wIV rfl)

/-- C4: `decrypt` splits the blob into IV (first 16 bytes), auth tag
(next 16 bytes) and ciphertext (remainder); a key whose decoded length
is not 32 bytes fails with an `EncryptionError` before any cryptographic
operation (the error does not depend on the blob); a truncated blob
(shorter than 32 bytes), a tampered tag, and a blob encrypted under a
different key all fail with an `EncryptionError`, never returning any
plaintext. -/
theorem C4_decrypt_fails_closed :
    (∀ blob key, AESEncryption.decrypt blob key =
      (if (hexToBytes key).length ≠ 32 then
        .error (.encryption "Key must be 32 bytes")
       else if blob.length < 32 then
        .error (.encryption "Decryption failed: malformed blob")
       else if (blob.drop 16).take 16 ≠
          gcmTag (hexToBytes key) (blob.take 16) (blob.drop 32) then
        .error (.encryption "Decryption failed: auth tag mismatch")
       else .ok (bytesToStr
        (xorStream (hexToBytes key) (blob.take 16) 0 (blob.drop 32))))) ∧
    (∀ blob key, (hexToBytes key).length ≠ 32 →
      AESEncryption.decrypt blob key = .error (.encryption "Key must be 32 bytes")) ∧
    (∀ blob key, (hexToBytes key).length = 32 → blob.length < 32 →
      AESEncryption.decrypt blob key =
        .error (.encryption "Decryption failed: malformed blob")) ∧
    (∀ key iv tag ct, (hexToBytes key).length = 32 → iv.length = 16 →
      tag.length = 16 → tag ≠ gcmTag (hexToBytes key) iv ct →
      AESEncryption.decrypt (iv ++ tag ++ ct) key =
        .error (.encryption "Decryption failed: auth tag mismatch")) ∧
    (∀ k1 k2 data iv blob, (hexToBytes k1).length = 32 →
      (hexToBytes k2).length = 32 → iv.length = 16 →
      hexToBytes k1 ≠ hexToBytes k2 →
      AESEncryption.encrypt data k1 iv = .ok blob →
      AESEncryption.decrypt blob k2 =
        .error (.encryption "Decryption failed: auth tag mismatch")) := by
  have hsplit : ∀ blob key, AESEncryption.decrypt blob key =
      (if (hexToBytes key).length ≠ 32 then
        .error (.encryption "Key must be 32 bytes")
       else if blob.length < 32 then
        .error (.encryption "Decryption failed: malformed blob")
       else if (blob.drop 16).take 16 ≠
          gcmTag (hexToBytes key) (blob.take 16) (blob.drop 32) then
        .error (.encryption "Decryption failed: auth tag mismatch")
       else .ok (bytesToStr
        (xorStream (hexToBytes key) (blob.take 16) 0 (blob.drop 32)))) := by
    intro blob key
    unfold AESEncryption.decrypt
    dsimp only
  refine ⟨hsplit, ?_, ?_, ?_, ?_⟩
  · intro blob key hk
    rw [hsplit, if_pos hk]
  · intro blob key hk hlen
    rw [hsplit, if_neg (by omega), if_pos hlen]
  · intro key iv tag ct hk hiv htag hne
    have h1 : ((iv ++ tag ++ ct).drop 16).take 16 = tag := by
      rw [List.append_assoc, List.drop_left' hiv, List.take_left' htag]
    have h2 : (iv ++ tag ++ ct).take 16 = iv := by
      rw [List.append_assoc, List.take_left' hiv]
    have h3 : (iv ++ tag ++ ct).drop 32 = ct := by
      rw [List.append_assoc]
      have hs : (32 : Nat) = 16 + 16 := rfl
      rw [hs, ← List.drop_drop, List.drop_left' hiv, List.drop_left' htag]
    have hlen : ¬ (iv ++ tag ++ ct).length < 32 := by
      simp only [List.length_append]
      omega
    rw [hsplit, if_neg (by omega), if_neg hlen, h1, h2, h3, if_pos hne]
  · intro k1 k2 data iv blob hk1 hk2 hiv hne hb
    rw [AES_encrypt_ok data k1 iv hk1] at hb
    cases hb
    have htag : (gcmTag (hexToBytes k1) iv
        (xorStream (hexToBytes k1) iv 0 (strToBytes data))).length = 16 :=
      gcmTag_length _ _ _
    have h2 : (iv ++ (gcmTag (hexToBytes k1) iv
        (xorStream (hexToBytes k1) iv 0 (strToBytes data)) ++
        xorStream (hexToBytes k1) iv 0 (strToBytes data))).take 16 = iv :=
      List.take_left' hiv
    have h1 : ((iv ++ (gcmTag (hexToBytes k1) iv
        (xorStream (hexToBytes k1) iv 0 (strToBytes data)) ++
        xorStream (hexToBytes k1) iv 0 (strToBytes data))).drop 16).take 16 =
        gcmTag (hexToBytes k1) iv
          (xorStream (hexToBytes k1) iv 0 (strToBytes data)) := by
      rw [List.drop_left' hiv, List.take_left' htag]
    have h3 : (iv ++ (gcmTag (hexToBytes k1) iv
        (xorStream (hexToBytes k1) iv 0 (strToBytes data)) ++
        xorStream (hexToBytes k1) iv 0 (strToBytes data))).drop 32 =
        xorStream (hexToBytes k1) iv 0 (strToBytes data) := by
      have hs : (32 : Nat) = 16 + 16 := rfl
      rw [hs, ← List.drop_drop, List.drop_left' hiv, List.drop_left' htag]
    have hlen : ¬ (iv ++ (gcmTag (hexToBytes k1) iv
        (xorStream (hexToBytes k1) iv 0 (strToBytes data)) ++
        xorStream (hexToBytes k1) iv 0 (strToBytes data))).length < 32 := by
      simp only [List.length_append, htag]
      omega
    have hmac : gcmTag (hexToBytes k1) iv
        (xorStream (hexToBytes k1) iv 0 (strToBytes data)) ≠
        gcmTag (hexToBytes k2) iv
          (xorStream (hexToBytes k1) iv 0 (strToBytes data)) :=
      gcmTag_key_inj _ _ (hexToBytes_lt k1) (hexToBytes_lt k2) hne
    rw [hsplit, if_neg (by omega), if_neg hlen, h1, h2, h3, if_pos hmac]

/-- Closed instance of `C4_decrypt_fails_closed`: a 63-hex-character key
is rejected; a 3-byte blob is rejected as malformed; an all-zero tag on
a zero IV and empty ciphertext mismatches; a blob encrypted under the
all-a key fails to decrypt under the all-b key. -/
theorem C4_decrypt_fails_closed_witness :
    (AESEncryption.decrypt [1, 2, 3] (String.mk (List.replicate 63 'a')) =
      .error (.encryption "Key must be 32 bytes")) ∧
    (AESEncryption.decrypt [1, 2, 3] wKey =
      .error (.encryption "Decryption failed: malformed blob")) ∧
    (AESEncryption.decrypt (wIV ++ List.replicate 16 0 ++ []) wKey =
      .error (.encryption "Decryption failed: auth tag mismatch")) ∧
    (∀ blob, AESEncryption.encrypt "secret" wKey wIV = .ok blob →
      AESEncryption.decrypt blob wKeyB =
        .error (.encryption "Decryption failed: auth tag mismatch")) := by
  refine ⟨C4_decrypt_fails_closed.2.1 [1, 2, 3] _ (by decide),
    C4_decrypt_fails_closed.2.2.1 [1, 2, 3] wKey (by decide) (by decide),
    C4_decrypt_fails_closed.2.2.2.1 wKey wIV (List.replicate 16 0) []
      (by decide) (by decide) (by decide) (by decide),
    fun blob hb => C4_decrypt_fails_closed.2.2.2.2 wKey wKeyB "secret" wIV blob
      (by decide) (by decide) (by decide) (by decide) hb⟩

/-- C5 (corrected): the file backend's filename is the key with every
character outside `[A-Za-z0-9._-]` replaced by an underscore and
leading/trailing dots stripped; every computed file path resolves to
exactly one new slash-free component directly under the base directory
(in particular `save("../../etc/passwd", ...)` writes only that in-base
path), and `verifyPath` rejects with a `StorageError` exactly those
paths whose resolved string does not extend the resolved base string —
a raw `startsWith` test with no separator guard, so the claim's "any
path resolving outside the base directory is rejected" is false:
sibling paths such as `/a/bc` under base `/a/b` pass the guard (see
`C5_path_guard_counterexample`). -/
theorem C5_sanitization_and_containment :
    (∀ key, sanitizeKey key = String.mk (stripTrailingDots (stripLeadingDots
      (key.data.map (fun c => if isAllowedChar c then c else '_'))))) ∧
    (∀ key, ∀ c ∈ (sanitizeKey key).data, isAllowedChar c = true) ∧
    (sanitizeKey "../../etc/passwd" = "_.._etc_passwd") ∧
    (∀ base key,
      FileStorage.verifyPath base (FileStorage.getFilePath base key) = .ok () ∧
      isDescendant base (FileStorage.getFilePath base key) = true ∧
      normalizeComponents (splitSlash (FileStorage.getFilePath base key).data) =
        normalizeComponents (splitSlash base.data) ++
          [(sanitizeKey key ++ ".json").data]) ∧
    (∀ fs base key value ts fs2,
      FileStorage.set fs base key value ts = .ok fs2 →
      ∀ p, fs2 p ≠ fs p → p = FileStorage.getFilePath base key) ∧
    (∀ base p, strStartsWith (resolvePath p) (resolvePath base) = false →
      FileStorage.verifyPath base p =
        .error (.storage "Access denied: path traversal attempt detected")) := by
  refine ⟨fun key => rfl, sanitizeKey_allowed, by decide, ?_, ?_, ?_⟩
  · intro base key
    exact ⟨FileStorage.verifyPath_getFilePath base key,
      FileStorage.isDescendant_getFilePath base key,
      FileStorage.components_getFilePath base key⟩
  · intro fs base key value ts fs2 hset p hnep
    unfold FileStorage.set at hset
    dsimp only at hset
    rw [FileStorage.verifyPath_getFilePath] at hset
    injection hset with hfs2
    subst hfs2
    by_cases hp : p = FileStorage.getFilePath base key
    · exact hp
    · exfalso
      apply hnep
      simp [hp]
  · exact FileStorage.verifyPath_outside

/-- Counterexample to C5 as stated: under base directory `/a/b`, the
path `/a/bc` resolves outside the base directory — it is a sibling, not
a descendant — yet `verifyPath` accepts it, because the source's guard
`resolved.startsWith(baseResolved)` (file-storage.ts line 54) is a raw
string-prefix test with no path-separator check. -/
theorem C5_path_guard_counterexample :
    isDescendant "/a/b" "/a/bc" = false ∧
    FileStorage.verifyPath "/a/b" "/a/bc" = .ok () :=
  ⟨by decide, rfl⟩

/-- Closed instance of `C5_sanitization_and_containment`: the traversal
key's file lands inside the base directory, and a path whose resolved
string does not extend the resolved base string is rejected. -/
theorem C5_sanitization_witness :
    FileStorage.verifyPath "creds"
      (FileStorage.getFilePath "creds" "../../etc/passwd") = .ok () ∧
    isDescendant "creds"
      (FileStorage.getFilePath "creds" "../../etc/passwd") = true ∧
    FileStorage.verifyPath "creds" "/etc/passwd" =
      .error (.storage "Access denied: path traversal attempt detected") :=
  ⟨(C5_sanitization_and_containment.2.2.2.1 "creds" "../../etc/passwd").1,
   (C5_sanitization_and_containment.2.2.2.1 "creds" "../../etc/passwd").2.1,
   C5_sanitization_and_containment.2.2.2.2.2 "creds" "/etc/passwd" (by decide)⟩

/-- C6: on the file backend, a missing file is not an error: `get`
resolves to not-found (`none`); a JSON parse failure on an existing file
is a `StorageError`, so absence and corruption are distinguished. -/
theorem C6_get_absent_vs_corrupt (fs : String → Option String)
    (base : String) (key : String) :
    (fs (FileStorage.getFilePath base key) = none →
      FileStorage.get fs base key = .ok none) ∧
    (∀ content, fs (FileStorage.getFilePath base key) = some content →
      parseJson content = none →
      FileStorage.get fs base key =
        .error (.storage "Failed to read from storage: JSON parse error")) := by
  constructor
  · intro h
    unfold FileStorage.get
    dsimp only
    rw [FileStorage.verifyPath_getFilePath, h]
  · intro content h hp
    unfold FileStorage.get
    dsimp only
    rw [FileStorage.verifyPath_getFilePath, h]
    dsimp only
    rw [hp]

set_option maxRecDepth 4096 in
/-- Closed instance of `C6_get_absent_vs_corrupt`: an empty filesystem
yields not-found, and a file holding the non-JSON content of a single
opening brace yields the parse `StorageError`. -/
theorem C6_get_absent_vs_corrupt_witness :
    FileStorage.get (fun _ => none) "creds" "db" = .ok none ∧
    FileStorage.get (fun p => if p = FileStorage.getFilePath "creds" "db"
        then some "\x7b" else none) "creds" "db" =
      .error (.storage "Failed to read from storage: JSON parse error") :=
  ⟨(C6_get_absent_vs_corrupt (fun _ => none) "creds" "db").1 rfl,
    (C6_get_absent_vs_corrupt _ "creds" "db").2 "\x7b" (if_pos rfl) rfl⟩

/-- C7: `save` rejects with a `ValidationError` any empty key, any key
longer than 255 characters, and any non-object credentials value (null,
primitive or array); the resulting error does not depend on the manager
at all — the same error is produced for every master key and every
backend state, so validation happens before any encryption or backend
I/O and the backend is left unchanged. -/
theorem C7_save_validates_first (key : String) (credentials : JValue)
    (iv : List Nat)
    (h : key = "" ∨ 255 < key.length ∨ ∀ fs2, credentials ≠ .obj fs2) :
    ∃ msg, ∀ m : CredentialsManager,
      m.save key credentials iv = .error (.validation msg) := by
  rcases validateKeyM_error_shape key with hok | ⟨msg, herr⟩
  · have hkey := (validateKeyM_ok_iff key).mp hok
    have hcred : ∀ fs2, credentials ≠ .obj fs2 := by
      rcases h with h | h | h
      · exact absurd h hkey.1
      · exact absurd h (by omega)
      · exact h
    rcases validateCredentialsM_error_shape credentials with hc | ⟨msg, hcerr⟩
    · obtain ⟨fs2, hfs⟩ := (validateCredentialsM_obj_iff credentials).mp hc
      exact absurd hfs (hcred fs2)
    · refine ⟨msg, fun m => ?_⟩
      unfold CredentialsManager.save
      rw [hok, hcerr]
  · refine ⟨msg, fun m => ?_⟩
    unfold CredentialsManager.save
    rw [herr]

set_option maxRecDepth 4096 in
/-- Closed instance of `C7_save_validates_first`: the empty key, a
256-character key, an array credentials value and a null credentials
value are each rejected with a `ValidationError` on every manager. -/
theorem C7_save_validates_first_witness :
    (∃ msg, ∀ m : CredentialsManager,
      m.save "" (.obj .nil) wIV = .error (.validation msg)) ∧
    (∃ msg, ∀ m : CredentialsManager,
      m.save (String.mk (List.replicate 256 'x')) (.obj .nil) wIV =
        .error (.validation msg)) ∧
    (∃ msg, ∀ m : CredentialsManager,
      m.save "db" (.arr .nil) wIV = .error (.validation msg)) ∧
    (∃ msg, ∀ m : CredentialsManager,
      m.save "db" .null wIV = .error (.validation msg)) :=
  ⟨C7_save_validates_first "" (.obj .nil) wIV (.inl rfl),
    C7_save_validates_first _ (.obj .nil) wIV (.inr (.inl (by decide))),
    C7_save_validates_first "db" (.arr .nil) wIV
      (.inr (.inr (fun fs2 h => JValue.noConfusion h))),
    C7_save_validates_first "db" .null wIV
      (.inr (.inr (fun fs2 h => JValue.noConfusion h)))⟩

/-- C8: `update` fails when no credentials exist under the key; when
credentials saved as a plain object exist, it returns exactly the
shallow merge of the updates over them (`{ ...existing, ...updates }`:
a colliding top-level key takes the update's value wholesale, nested
objects are not merged recursively) and a subsequent `load` returns the
same merged value. -/
theorem C8_update_shallow_merge (m : CredentialsManager) (key : String)
    (updates : JFields) (iv1 iv2 : List Nat) :
    (validateKeyM key = .ok () → m.store key = none →
      ∃ msg, m.update key updates iv1 = .error (.credentials msg)) ∧
    (∀ C m2, validateKeyM key = .ok () →
      (hexToBytes m.masterKey).length = 32 →
      iv1.length = 16 → iv2.length = 16 →
      m.save key (.obj C) iv1 = .ok m2 →
      ∃ m3, m2.update key updates iv2 =
          .ok (.obj (CredentialsManager.spreadFields C updates), m3) ∧
        m3.load key = .ok (.obj (CredentialsManager.spreadFields C updates))) := by
  constructor
  · intro hk hstore
    refine ⟨"Credentials not found for key: " ++ key, ?_⟩
    unfold CredentialsManager.update
    rw [CredentialsManager.load_not_found m key hk hstore]
  · intro C m2 hk hmk hiv1 hiv2 hsave
    have hsave2 := CredentialsManager.save_ok m key C iv1 hk hmk
    rw [hsave] at hsave2
    injection hsave2 with hm2
    subst hm2
    set S : CredentialsManager := ⟨m.masterKey, fun k2 => if k2 = key then
        some (iv1 ++ (gcmTag (hexToBytes m.masterKey) iv1
            (xorStream (hexToBytes m.masterKey) iv1 0
              (strToBytes (encodeJson (.obj C)))) ++
          xorStream (hexToBytes m.masterKey) iv1 0
            (strToBytes (encodeJson (.obj C)))))
      else m.store k2⟩ with hS
    have hmkS : (hexToBytes S.masterKey).length = 32 := hmk
    refine ⟨⟨S.masterKey, fun k2 => if k2 = key then
        some (iv2 ++ (gcmTag (hexToBytes S.masterKey) iv2
            (xorStream (hexToBytes S.masterKey) iv2 0
              (strToBytes (encodeJson (.obj (CredentialsManager.spreadFields C updates))))) ++
          xorStream (hexToBytes S.masterKey) iv2 0
            (strToBytes (encodeJson (.obj (CredentialsManager.spreadFields C updates))))))
      else S.store k2⟩, ?_, ?_⟩
    · unfold CredentialsManager.update
      have hloadS : S.load key = .ok (.obj C) :=
        CredentialsManager.load_fresh_saved m.masterKey m.store key C iv1 hk hmk hiv1
      rw [hloadS]
      have hjs : CredentialsManager.jsSpread (.obj C) updates =
          .obj (CredentialsManager.spreadFields C updates) := rfl
      dsimp only
      rw [hjs, CredentialsManager.save_ok S key
        (CredentialsManager.spreadFields C updates) iv2 hk hmkS]
    · exact CredentialsManager.load_fresh_saved S.masterKey S.store key
        (CredentialsManager.spreadFields C updates) iv2 hk hmkS hiv2

/-- Closed instance of `C8_update_shallow_merge`: updating a missing key
fails; updating `{a: {x: 1, y: 2}}` with `{a: {x: 9}}` returns
`{a: {x: 9}}` — the nested object is replaced wholesale, dropping `y`,
a shallow and not a deep merge. -/
theorem C8_update_shallow_merge_witness :
    (∃ msg, (⟨wKey, fun _ => none⟩ : CredentialsManager).update "db" .nil wIV =
      .error (.credentials msg)) ∧
    (∀ m2, (⟨wKey, fun _ => none⟩ : CredentialsManager).save "db"
        (.obj (.cons "a" (.obj (.cons "x" (.num 1) (.cons "y" (.num 2) .nil))) .nil))
        wIV = .ok m2 →
      ∃ m3, m2.update "db" (.cons "a" (.obj (.cons "x" (.num 9) .nil)) .nil) wIV =
        .ok (.obj (.cons "a" (.obj (.cons "x" (.num 9) .nil)) .nil), m3)) := by
  constructor
  · exact (C8_update_shallow_merge (⟨wKey, fun _ => none⟩ : CredentialsManager)
      "db" .nil wIV wIV).1 rfl rfl
  · intro m2 hs
    obtain ⟨m3, hupd, _⟩ := (C8_update_shallow_merge
      (⟨wKey, fun _ => none⟩ : CredentialsManager) "db"
      (.cons "a" (.obj (.cons "x" (.num 9) .nil)) .nil) wIV wIV).2
      (.cons "a" (.obj (.cons "x" (.num 1) (.cons "y" (.num 2) .nil))) .nil)
      m2 rfl rfl rfl rfl hs
    exact ⟨m3, hupd.trans rfl⟩

/-- C9: every scoped operation delegates to its unscoped counterpart at
the key `name ++ "." ++ scope` when a non-empty scope is given and at
`name` when no scope is given; a scoped save/load round-trips, and the
entry under the bare name is distinct from the scoped entry. -/
theorem C9_scoped_operations (m : CredentialsManager) (name : String)
    (scope : Option String) :
    (m.loadScoped name scope =
      m.load (CredentialsManager.generateScopedKey name scope)) ∧
    (∀ c iv, m.saveScoped name c scope iv =
      m.save (CredentialsManager.generateScopedKey name scope) c iv) ∧
    (m.deleteScoped name scope =
      m.delete (CredentialsManager.generateScopedKey name scope)) ∧
    (m.existsScoped name scope =
      m.existsKey (CredentialsManager.generateScopedKey name scope)) ∧
    (∀ s, s ≠ "" →
      CredentialsManager.generateScopedKey name (some s) = name ++ "." ++ s) ∧
    (CredentialsManager.generateScopedKey name none = name) ∧
    (∀ s C iv, s ≠ "" → validateKeyM (name ++ "." ++ s) = .ok () →
      (hexToBytes m.masterKey).length = 32 → iv.length = 16 →
      ∃ m2, m.saveScoped name (.obj C) (some s) iv = .ok m2 ∧
        m2.loadScoped name (some s) = .ok (.obj C) ∧
        (validateKeyM name = .ok () → m.store name = none →
          m2.loadScoped name none =
            .error (.credentials ("Credentials not found for key: " ++ name)))) := by
  refine ⟨rfl, fun c iv => rfl, rfl, rfl, fun s hs => ?_, rfl, ?_⟩
  · unfold CredentialsManager.generateScopedKey
    dsimp only
    rw [if_neg hs]
  · intro s C iv hs hkey hmk hiv
    have hgen : CredentialsManager.generateScopedKey name (some s) =
        name ++ "." ++ s := by
      unfold CredentialsManager.generateScopedKey
      dsimp only
      rw [if_neg hs]
    have hslen : s.length ≠ 0 := by
      intro h0
      apply hs
      have hd : s.data = [] := List.length_eq_zero.mp h0
      cases s with
      | mk d => exact congrArg String.mk hd
    have hne : name ≠ name ++ "." ++ s := by
      intro hcon
      have hl := congrArg String.length hcon
      rw [String.length_append, String.length_append] at hl
      have h1 : ("." : String).length = 1 := rfl
      omega
    obtain ⟨m2, h1, h2, _, h4⟩ := CredentialsManager.save_load_roundtrip m
      (name ++ "." ++ s) C iv hkey hmk hiv
    refine ⟨m2, ?_, ?_, ?_⟩
    · unfold CredentialsManager.saveScoped
      rw [hgen]
      exact h1
    · unfold CredentialsManager.loadScoped
      rw [hgen]
      exact h2
    · intro hk0 hstore
      unfold CredentialsManager.loadScoped
      show m2.load name = _
      have hstore2 : m2.store name = none := by
        rw [h4 name hne]
        exact hstore
      exact CredentialsManager.load_not_found m2 name hk0 hstore2

/-- Closed instance of `C9_scoped_operations`: saving under the
`production` scope round-trips under that scope, while the unscoped name
remains a distinct (absent) entry. -/
theorem C9_scoped_operations_witness :
    ∃ m2, (⟨wKey, fun _ => none⟩ : CredentialsManager).saveScoped "db"
        (.obj .nil) (some "production") wIV = .ok m2 ∧
      m2.loadScoped "db" (some "production") = .ok (.obj .nil) ∧
      m2.loadScoped "db" none =
        .error (.credentials "Credentials not found for key: db") := by
  obtain ⟨m2, h1, h2, h3⟩ := (C9_scoped_operations
    (⟨wKey, fun _ => none⟩ : CredentialsManager) "db"
    (some "production")).2.2.2.2.2.2 "production" .nil wIV
    (by decide) rfl rfl rfl
  exact ⟨m2, h1, h2, h3 rfl rfl⟩

/-- C10: a stored file that exists and parses as JSON but whose record
has no `value` field — or whose `value` is the empty string — makes
`FileStorage.get` return not-found (`none`) rather than an error;
a manager whose backend blob is the empty string fails `load` with the
same not-found `CredentialsError` as an absent entry, so a
corrupt-but-parseable record is indistinguishable from an absent one at
the `load` boundary. -/
theorem C10_empty_value_not_found (fs : String → Option String)
    (base : String) (key : String) (m : CredentialsManager)
    (mkey : String) :
    (∀ content flds, fs (FileStorage.getFilePath base key) = some content →
      parseJson content = some (.obj flds) →
      (FileStorage.lookupLastField flds "value" = none ∨
        FileStorage.lookupLastField flds "value" = some (.str "")) →
      FileStorage.get fs base key = .ok none) ∧
    (validateKeyM mkey = .ok () → m.store mkey = some [] →
      m.load mkey =
        .error (.credentials ("Credentials not found for key: " ++ mkey)) ∧
      ∀ m2 : CredentialsManager, m2.store mkey = none →
        m.load mkey = m2.load mkey) := by
  constructor
  · intro content flds hc hp hval
    unfold FileStorage.get
    dsimp only
    rw [FileStorage.verifyPath_getFilePath, hc]
    dsimp only
    rw [hp]
    rcases hval with hval | hval <;>
      simp [FileStorage.recordValue, hval, FileStorage.jsTruthy]
  · intro hk hstore
    refine ⟨CredentialsManager.load_empty_blob m mkey hk hstore, ?_⟩
    intro m2 h2
    rw [CredentialsManager.load_empty_blob m mkey hk hstore,
      CredentialsManager.load_not_found m2 mkey hk h2]

/-- Closed instance of `C10_empty_value_not_found`: a record file whose
`value` field is the empty string yields not-found, and a manager whose
backend holds an empty blob fails `load` with the not-found error. -/
theorem C10_empty_value_not_found_witness :
    FileStorage.get (fun p => if p = FileStorage.getFilePath "creds" "db"
        then some "\x7b\x22value\x22:\x22\x22\x7d" else none) "creds" "db" =
      .ok none ∧
    (⟨wKey, fun k => if k = "db" then some [] else none⟩ :
      CredentialsManager).load "db" =
      .error (.credentials "Credentials not found for key: db") :=
  ⟨(C10_empty_value_not_found _ "creds" "db"
      (⟨wKey, fun _ => none⟩ : CredentialsManager) "db").1
    "\x7b\x22value\x22:\x22\x22\x7d" (.cons "value" (.str "") .nil)
    (if_pos rfl) rfl (.inr rfl),
   ((C10_empty_value_not_found (fun _ => none) "creds" "db"
      (⟨wKey, fun k => if k = "db" then some [] else none⟩ :
        CredentialsManager) "db").2 rfl rfl).1⟩

end Libertas
